import Mathlib

/-!
Verification of `subtitle_cleaner.py` (SRT subtitle cleaner).

This file gives a shallow embedding of the program's data model and
operations, translated from `src/subtitle_cleaner.py`, and proves (or
refutes) the specification's claims about them.

Conventions:
* Python `str` is embedded as Lean `String`; where character-level
  reasoning is needed we work on `String.data : List Char`.
* Python's whitespace notion (for `str.strip()` and the regex class
  `\s`) is embedded by `pyIsSpace`, covering the ASCII whitespace
  characters.  (Non-ASCII Unicode whitespace is outside the model.)
* The in-place mutation of `remove_duplicates` (the assignment
  `current.text_lines = ...` mutates the very objects that the next
  iteration reads through `entries[i-1]`) is embedded by threading the
  evolving list of entry states through the loop (`List.set`).
-/

namespace SubtitleCleaner

/-- ASCII whitespace, as stripped by Python's `str.strip()` and matched by
the regex class `\s`. -/
def pyIsSpace (c : Char) : Bool :=
  c = ' ' || c = '\t' || c = '\n' || c = '\r' || c = '\x0b' || c = '\x0c'

/-- Python `str.strip()` on a character list: drop whitespace from both
ends. -/
def stripChars (l : List Char) : List Char :=
  ((l.dropWhile pyIsSpace).reverse.dropWhile pyIsSpace).reverse

/-- Python `line.strip()`. -/
def pyStrip (s : String) : String :=
  String.mk (stripChars s.data)

/-- `SubtitleEntry` from `subtitle_cleaner.py`: one subtitle block. -/
structure SubtitleEntry where
  number : Int
  start_time : String
  end_time : String
  text_lines : List String
  deriving DecidableEq, Inhabited, Repr

/-- `SubtitleEntry.is_empty`: `not any(line.strip() for line in self.text_lines)`. -/
def SubtitleEntry.is_empty (e : SubtitleEntry) : Bool :=
  ! e.text_lines.any (fun line => pyStrip line ≠ "")

/-- `SubtitleEntry.get_cleaned_lines`: the non-empty (after strip) lines. -/
def SubtitleEntry.get_cleaned_lines (e : SubtitleEntry) : List String :=
  e.text_lines.filter (fun line => pyStrip line ≠ "")

/-- The duplicate test of `remove_duplicates` (line 97 of the source):
`current_lines and prev_lines and current_lines[0] == prev_lines[-1]`. -/
def dupCondition (prev current : SubtitleEntry) : Bool :=
  let prev_lines := prev.get_cleaned_lines
  let current_lines := current.get_cleaned_lines
  !current_lines.isEmpty && !prev_lines.isEmpty &&
    (current_lines.head?.getD "" == prev_lines.getLast?.getD "")

/-- The trim of `remove_duplicates` (line 99 of the source):
`current.text_lines = current.text_lines[1:] if len(current.text_lines) > 1 else []`. -/
def trimFirst (e : SubtitleEntry) : SubtitleEntry :=
  { e with text_lines := if e.text_lines.length > 1 then e.text_lines.drop 1 else [] }

/-- The `for i in range(1, len(entries))` loop of `remove_duplicates`.
`entries` is the evolving list of entry states (Python mutates the entry
objects in place, so `entries[i-1]` read at step `i` sees the state left
by step `i-1`); `result` is the accumulated output list. -/
def removeDuplicatesLoop : Nat → List SubtitleEntry → Nat → List SubtitleEntry →
    List SubtitleEntry
  | 0, _, _, result => result
  | fuel + 1, entries, i, result =>
    if i < entries.length then
      let prev := entries.getD (i - 1) default
      let current := entries.getD i default
      if prev.is_empty || current.is_empty then
        removeDuplicatesLoop fuel entries (i + 1) (result ++ [current])
      else if dupCondition prev current then
        let current' := trimFirst current
        let entries' := entries.set i current'
        if current'.is_empty then
          removeDuplicatesLoop fuel entries' (i + 1) result
        else
          removeDuplicatesLoop fuel entries' (i + 1) (result ++ [current'])
      else
        removeDuplicatesLoop fuel entries (i + 1) (result ++ [current])
    else
      result

/-- `remove_duplicates` from `subtitle_cleaner.py`: one cleaning pass.
The fuel `entries.length` bounds the `range(1, len(entries))` loop (the
list's length never changes during the pass, so the fuel is never
exhausted before `i` reaches the end). -/
def remove_duplicates (entries : List SubtitleEntry) : List SubtitleEntry :=
  match entries with
  | [] => []
  | e0 :: rest => removeDuplicatesLoop (e0 :: rest).length (e0 :: rest) 1 [e0]

/-- Recursive characterisation of the pass: the first argument is the
state of the previous entry as it stands when the current entry is
reached (i.e. after any trim applied to it earlier in this same pass). -/
def cleanGo (prev : SubtitleEntry) : List SubtitleEntry → List SubtitleEntry
  | [] => []
  | current :: rest =>
    if prev.is_empty || current.is_empty then
      current :: cleanGo current rest
    else if dupCondition prev current then
      let current' := trimFirst current
      if current'.is_empty then cleanGo current' rest
      else current' :: cleanGo current' rest
    else
      current :: cleanGo current rest

/-- The pass, in the recursive formulation. -/
def removeDuplicatesSpec : List SubtitleEntry → List SubtitleEntry
  | [] => []
  | e0 :: rest => e0 :: cleanGo e0 rest

/-- Variant of the pass in which each comparison uses the previous
entry's state as it was at the *start* of the pass (what the spec
asserts), rather than its possibly-trimmed current state. -/
def cleanGoOrig (prev : SubtitleEntry) : List SubtitleEntry → List SubtitleEntry
  | [] => []
  | current :: rest =>
    if prev.is_empty || current.is_empty then
      current :: cleanGoOrig current rest
    else if dupCondition prev current then
      let current' := trimFirst current
      if current'.is_empty then cleanGoOrig current rest
      else current' :: cleanGoOrig current rest
    else
      current :: cleanGoOrig current rest

/-- The pass as the spec describes it: comparisons always against the
original (start-of-pass) state of the predecessor. -/
def removeDuplicatesOrigPrev : List SubtitleEntry → List SubtitleEntry
  | [] => []
  | e0 :: rest => e0 :: cleanGoOrig e0 rest

/-- `for i, entry in enumerate(cleaned, 1): entry.number = i`, starting
from an arbitrary first index. -/
def renumberFrom (i : Int) : List SubtitleEntry → List SubtitleEntry
  | [] => []
  | e :: rest => { e with number := i } :: renumberFrom (i + 1) rest

/-- The renumbering step of `perform_deep_cleaning` (lines 137-138). -/
def renumber (l : List SubtitleEntry) : List SubtitleEntry :=
  renumberFrom 1 l

/-- The `for _ in range(5)` loop of `perform_deep_cleaning`: run
`remove_duplicates`, stop early when the entry count did not change. -/
def cleaningLoop : Nat → List SubtitleEntry → List SubtitleEntry
  | 0, cleaned => cleaned
  | fuel + 1, cleaned =>
    let next := remove_duplicates cleaned
    if next.length = cleaned.length then next
    else cleaningLoop fuel next

/-- `perform_deep_cleaning` from `subtitle_cleaner.py`. -/
def perform_deep_cleaning (entries : List SubtitleEntry) : List SubtitleEntry :=
  renumber ((cleaningLoop 5 entries).filter (fun e => ! e.is_empty))

/-! ### The loop agrees with the recursive characterisation -/

lemma getD_append_cons (pre : List SubtitleEntry) (x : SubtitleEntry)
    (l : List SubtitleEntry) (n : Nat) (hn : n = pre.length) :
    (pre ++ x :: l).getD n default = x := by
  subst hn
  induction pre with
  | nil => rfl
  | cons a pre ih => simpa using ih

lemma set_append_cons_cons (pre : List SubtitleEntry) (x y a : SubtitleEntry)
    (l : List SubtitleEntry) (n : Nat) (hn : n = pre.length + 1) :
    (pre ++ x :: y :: l).set n a = pre ++ x :: a :: l := by
  subst hn
  induction pre with
  | nil => rfl
  | cons b pre ih => simp [ih]

lemma removeDuplicatesLoop_eq_cleanGo (rest : List SubtitleEntry) :
    ∀ (fuel : Nat) (pre : List SubtitleEntry) (prev : SubtitleEntry)
      (result : List SubtitleEntry), rest.length < fuel →
    removeDuplicatesLoop fuel (pre ++ prev :: rest) (pre.length + 1) result
      = result ++ cleanGo prev rest := by
  induction rest with
  | nil =>
    intro fuel pre prev result hfuel
    obtain ⟨f, rfl⟩ := Nat.exists_eq_succ_of_ne_zero (Nat.pos_iff_ne_zero.mp hfuel)
    rw [removeDuplicatesLoop, if_neg (by simp)]
    simp [cleanGo]
  | cons current rest ih =>
    intro fuel pre prev result hfuel
    obtain ⟨f, rfl⟩ := Nat.exists_eq_succ_of_ne_zero (by omega : fuel ≠ 0)
    have hf : rest.length < f := by
      simp only [List.length_cons] at hfuel
      omega
    have e1 : (pre ++ prev :: current :: rest).getD (pre.length + 1 - 1) default = prev :=
      getD_append_cons pre prev _ _ (by omega)
    have hsplit : pre ++ prev :: current :: rest = (pre ++ [prev]) ++ current :: rest := by
      simp
    have e2 : (pre ++ prev :: current :: rest).getD (pre.length + 1) default = current := by
      rw [hsplit]
      exact getD_append_cons _ _ _ _ (by simp)
    rw [removeDuplicatesLoop, if_pos (by simp)]
    simp only [e1, e2, cleanGo]
    by_cases hskip : (prev.is_empty || current.is_empty) = true
    · rw [if_pos hskip, if_pos hskip]
      have := ih f (pre ++ [prev]) current (result ++ [current]) hf
      simp only [List.append_assoc, List.singleton_append, List.length_append,
        List.length_cons, List.length_nil] at this ⊢
      rw [this]
    · rw [if_neg hskip, if_neg hskip]
      by_cases hdup : dupCondition prev current = true
      · rw [if_pos hdup, if_pos hdup]
        have eset : (pre ++ prev :: current :: rest).set (pre.length + 1) (trimFirst current)
            = (pre ++ [prev]) ++ trimFirst current :: rest := by
          rw [set_append_cons_cons pre prev current (trimFirst current) rest _ rfl]
          simp
        simp only [eset]
        by_cases hemp : (trimFirst current).is_empty = true
        · rw [if_pos hemp, if_pos hemp]
          have := ih f (pre ++ [prev]) (trimFirst current) result hf
          simp only [List.append_assoc, List.singleton_append, List.length_append,
            List.length_cons, List.length_nil] at this ⊢
          rw [this]
        · rw [if_neg hemp, if_neg hemp]
          have := ih f (pre ++ [prev]) (trimFirst current) (result ++ [trimFirst current]) hf
          simp only [List.append_assoc, List.singleton_append, List.length_append,
            List.length_cons, List.length_nil] at this ⊢
          rw [this]
      · rw [if_neg hdup, if_neg hdup]
        have := ih f (pre ++ [prev]) current (result ++ [current]) hf
        simp only [List.append_assoc, List.singleton_append, List.length_append,
          List.length_cons, List.length_nil] at this ⊢
        rw [this]

/-- The in-place pass equals the recursive formulation in which each
entry is compared against its predecessor's current (possibly trimmed)
state. -/
lemma remove_duplicates_eq_spec (entries : List SubtitleEntry) :
    remove_duplicates entries = removeDuplicatesSpec entries := by
  cases entries with
  | nil => rfl
  | cons e0 rest =>
    have := removeDuplicatesLoop_eq_cleanGo rest (rest.length + 1) [] e0 [e0] (by omega)
    simpa [remove_duplicates, removeDuplicatesSpec] using this

/-! ### Renumbering lemmas -/

lemma renumberFrom_length : ∀ (l : List SubtitleEntry) (i : Int),
    (renumberFrom i l).length = l.length := by
  intro l
  induction l with
  | nil => intro i; rfl
  | cons e rest ih => intro i; simp [renumberFrom, ih]

lemma mem_renumberFrom : ∀ {l : List SubtitleEntry} {i : Int} {e : SubtitleEntry},
    e ∈ renumberFrom i l → ∃ e' ∈ l, e = { e' with number := e.number } := by
  intro l
  induction l with
  | nil => intro i e h; simp [renumberFrom] at h
  | cons a rest ih =>
    intro i e h
    simp only [renumberFrom, List.mem_cons] at h
    rcases h with h | h
    · exact ⟨a, List.mem_cons_self a rest, by rw [h]⟩
    · obtain ⟨e', he', hee⟩ := ih h
      exact ⟨e', List.mem_cons_of_mem a he', hee⟩

lemma is_empty_set_number (e : SubtitleEntry) (n : Int) :
    ({ e with number := n } : SubtitleEntry).is_empty = e.is_empty := rfl

lemma renumberFrom_renumberFrom : ∀ (l : List SubtitleEntry) (i j : Int),
    renumberFrom i (renumberFrom j l) = renumberFrom i l := by
  intro l
  induction l with
  | nil => intro i j; rfl
  | cons e rest ih => intro i j; simp [renumberFrom, ih]

/-- Every entry surviving `perform_deep_cleaning` is non-empty. -/
lemma mem_perform_deep_cleaning_not_empty {entries : List SubtitleEntry}
    {e : SubtitleEntry} (h : e ∈ perform_deep_cleaning entries) :
    e.is_empty = false := by
  unfold perform_deep_cleaning renumber at h
  obtain ⟨e', he', hee⟩ := mem_renumberFrom h
  rw [List.mem_filter] at he'
  have : e'.is_empty = false := by
    have := he'.2
    simpa using this
  rw [hee, is_empty_set_number, this]

/-! ### Claim C1: which predecessor state does a pass compare against? -/

/-- Concrete input refuting C1: entry 2 is trimmed to empty during the
pass, and entry 3 is then compared against entry 2's *mutated* (empty)
state, so entry 3 keeps its duplicated line "B". -/
def exC1 : List SubtitleEntry :=
  [⟨1, "00:00:00,000", "00:00:01,000", ["A", "B"]⟩,
   ⟨2, "00:00:01,000", "00:00:02,000", ["B"]⟩,
   ⟨3, "00:00:02,000", "00:00:03,000", ["B", "C"]⟩]

/-- C1 (counterexample): the pass does not behave as if each comparison
used the predecessor's start-of-pass state: on `exC1` the code's pass
(`remove_duplicates`) differs from the start-of-pass-state variant
(`removeDuplicatesOrigPrev`); concretely the code returns entries with
lines [["A","B"], ["B","C"]] while the claimed semantics would return
[["A","B"], ["C"]]. -/
theorem C1_counterexample :
    remove_duplicates exC1 ≠ removeDuplicatesOrigPrev exC1 ∧
    (remove_duplicates exC1).map SubtitleEntry.text_lines = [["A", "B"], ["B", "C"]] ∧
    (removeDuplicatesOrigPrev exC1).map SubtitleEntry.text_lines = [["A", "B"], ["C"]] := by
  refine ⟨?_, ?_, ?_⟩ <;> decide

/-- C1 (amended): in a `remove_duplicates` pass, each entry is compared
against its predecessor's state as it stands when the entry is reached —
i.e. including any trim applied to the predecessor earlier in the same
pass (the in-place mutation of `entries[i-1]` is visible): the pass
equals the recursion `cleanGo` that threads the predecessor's current
state. -/
theorem C1_mutated_prev_state (entries : List SubtitleEntry) :
    remove_duplicates entries = removeDuplicatesSpec entries :=
  remove_duplicates_eq_spec entries

/-! ### Claim C2: idempotence of deep cleaning -/

/-- Concrete input refuting C2: the single pass trims entry 2 from
["B","B","C"] to ["B","C"] without changing the entry count, so the
loop stops; a second `perform_deep_cleaning` trims further. -/
def exC2 : List SubtitleEntry :=
  [⟨1, "00:00:00,000", "00:00:01,000", ["B"]⟩,
   ⟨2, "00:00:01,000", "00:00:02,000", ["B", "B", "C"]⟩]

/-- C2 (counterexample): `perform_deep_cleaning` is not idempotent: on
`exC2` a second application trims entry 2 again ( [["B"],["B","C"]]
becomes [["B"],["C"]] ). -/
theorem C2_counterexample :
    perform_deep_cleaning (perform_deep_cleaning exC2) ≠ perform_deep_cleaning exC2 ∧
    (perform_deep_cleaning exC2).map SubtitleEntry.text_lines = [["B"], ["B", "C"]] ∧
    (perform_deep_cleaning (perform_deep_cleaning exC2)).map SubtitleEntry.text_lines
      = [["B"], ["C"]] := by
  refine ⟨?_, ?_, ?_⟩ <;> decide

/-- C2 (amended): `perform_deep_cleaning` is idempotent on an input
whose cleaned form is a true one-pass fixpoint: if one further
`remove_duplicates` pass leaves `perform_deep_cleaning entries`
unchanged, then re-running `perform_deep_cleaning` returns it
unchanged (same entries, same count). -/
theorem C2_idempotent_on_fixpoint (entries : List SubtitleEntry)
    (h : remove_duplicates (perform_deep_cleaning entries) = perform_deep_cleaning entries) :
    perform_deep_cleaning (perform_deep_cleaning entries) = perform_deep_cleaning entries := by
  have hloop : cleaningLoop 5 (perform_deep_cleaning entries) = perform_deep_cleaning entries := by
    simp [cleaningLoop, h]
  have hfilter : (perform_deep_cleaning entries).filter (fun e => ! e.is_empty)
      = perform_deep_cleaning entries := by
    rw [List.filter_eq_self]
    intro e he
    simp [mem_perform_deep_cleaning_not_empty he]
  conv_lhs => rw [perform_deep_cleaning, hloop, hfilter]
  rw [perform_deep_cleaning, renumber, renumber, renumberFrom_renumberFrom]

/-- Witness for `C2_idempotent_on_fixpoint` at a concrete duplicate-free
input. -/
theorem C2_idempotent_on_fixpoint_witness :
    remove_duplicates (perform_deep_cleaning exC1) = perform_deep_cleaning exC1 ∧
    perform_deep_cleaning (perform_deep_cleaning exC1) = perform_deep_cleaning exC1 :=
  ⟨by decide, C2_idempotent_on_fixpoint exC1 (by decide)⟩

/-! ### Claim C4: the shape of the deep-cleaning iteration -/

/-- `remove_duplicates` iterated `k` times. -/
def applyPasses : Nat → List SubtitleEntry → List SubtitleEntry
  | 0, entries => entries
  | k + 1, entries => applyPasses k (remove_duplicates entries)

/-- The index of the pass after which the deep-cleaning loop stops: the
first `j ∈ {1,...,5}` whose pass leaves the entry count unchanged, and 5
when every pass changes the count. -/
def stopIndex (entries : List SubtitleEntry) : Nat :=
  ((List.range' 1 5).find? fun j =>
      (applyPasses j entries).length == (applyPasses (j - 1) entries).length).getD 5

/-- C4: `perform_deep_cleaning` applies `remove_duplicates` exactly
`stopIndex entries ≤ 5` times — stopping at the first pass that leaves
the entry count unchanged (every earlier pass changed the count), even
if that pass trimmed lines — and then unconditionally filters out
entries with no non-empty lines (and renumbers). -/
theorem C4_loop_shape (entries : List SubtitleEntry) :
    perform_deep_cleaning entries
      = renumber ((applyPasses (stopIndex entries) entries).filter (fun e => ! e.is_empty))
    ∧ stopIndex entries ≤ 5
    ∧ (∀ j, 1 ≤ j → j < stopIndex entries →
        (applyPasses j entries).length ≠ (applyPasses (j - 1) entries).length)
    ∧ (stopIndex entries = 5 ∨
        (applyPasses (stopIndex entries) entries).length
          = (applyPasses (stopIndex entries - 1) entries).length) := by
  have hrange : List.range' 1 5 = [1, 2, 3, 4, 5] := rfl
  by_cases h1 : (applyPasses 1 entries).length = (applyPasses 0 entries).length
  · have b1 := beq_iff_eq.mpr h1
    have hs : stopIndex entries = 1 := by
      simp [stopIndex, hrange, List.find?, b1]
    refine ⟨?_, by omega, ?_, ?_⟩
    · simp only [perform_deep_cleaning, cleaningLoop, hs]
      simp only [applyPasses] at h1 ⊢
      rw [if_pos h1]
    · intro j hj1 hj2; rw [hs] at hj2; omega
    · right; rw [hs]; simpa using h1
  · have b1 := beq_eq_false_iff_ne.mpr h1
    by_cases h2 : (applyPasses 2 entries).length = (applyPasses 1 entries).length
    · have b2 := beq_iff_eq.mpr h2
      have hs : stopIndex entries = 2 := by
        simp [stopIndex, hrange, List.find?, b1, b2]
      refine ⟨?_, by omega, ?_, ?_⟩
      · simp only [perform_deep_cleaning, cleaningLoop, hs]
        simp only [applyPasses] at h1 h2 ⊢
        rw [if_neg h1, if_pos h2]
      · intro j hj1 hj2
        rw [hs] at hj2
        interval_cases j
        simpa using h1
      · right; rw [hs]; simpa using h2
    · have b2 := beq_eq_false_iff_ne.mpr h2
      by_cases h3 : (applyPasses 3 entries).length = (applyPasses 2 entries).length
      · have b3 := beq_iff_eq.mpr h3
        have hs : stopIndex entries = 3 := by
          simp [stopIndex, hrange, List.find?, b1, b2, b3]
        refine ⟨?_, by omega, ?_, ?_⟩
        · simp only [perform_deep_cleaning, cleaningLoop, hs]
          simp only [applyPasses] at h1 h2 h3 ⊢
          rw [if_neg h1, if_neg h2, if_pos h3]
        · intro j hj1 hj2
          rw [hs] at hj2
          interval_cases j
          · simpa using h1
          · simpa using h2
        · right; rw [hs]; simpa using h3
      · have b3 := beq_eq_false_iff_ne.mpr h3
        by_cases h4 : (applyPasses 4 entries).length = (applyPasses 3 entries).length
        · have b4 := beq_iff_eq.mpr h4
          have hs : stopIndex entries = 4 := by
            simp [stopIndex, hrange, List.find?, b1, b2, b3, b4]
          refine ⟨?_, by omega, ?_, ?_⟩
          · simp only [perform_deep_cleaning, cleaningLoop, hs]
            simp only [applyPasses] at h1 h2 h3 h4 ⊢
            rw [if_neg h1, if_neg h2, if_neg h3, if_pos h4]
          · intro j hj1 hj2
            rw [hs] at hj2
            interval_cases j
            · simpa using h1
            · simpa using h2
            · simpa using h3
          · right; rw [hs]; simpa using h4
        · have b4 := beq_eq_false_iff_ne.mpr h4
          have hs : stopIndex entries = 5 := by
            cases hb5 : ((applyPasses 5 entries).length == (applyPasses 4 entries).length) <;>
              simp [stopIndex, hrange, List.find?, b1, b2, b3, b4, hb5]
          refine ⟨?_, by omega, ?_, ?_⟩
          · simp only [perform_deep_cleaning, cleaningLoop, hs]
            simp only [applyPasses] at h1 h2 h3 h4 ⊢
            rw [if_neg h1, if_neg h2, if_neg h3, if_neg h4]
            split <;> rfl
          · intro j hj1 hj2
            rw [hs] at hj2
            interval_cases j
            · simpa using h1
            · simpa using h2
            · simpa using h3
            · simpa using h4
          · left; exact hs

/-- A concrete input on which the deep-cleaning loop stops after the
second pass (the first pass drops an entry, the second changes
nothing). -/
def exC4 : List SubtitleEntry :=
  [⟨1, "00:00:00,000", "00:00:01,000", ["A"]⟩,
   ⟨2, "00:00:01,000", "00:00:02,000", ["A"]⟩]

/-- Witness for `C4_loop_shape`: on `exC4` the loop stops at pass 2, and
pass 1 (before the stopping pass) changed the entry count. -/
theorem C4_loop_shape_witness :
    1 ≤ 1 ∧ 1 < stopIndex exC4 ∧
    (applyPasses 1 exC4).length ≠ (applyPasses 0 exC4).length :=
  ⟨Nat.le_refl 1, by decide, (C4_loop_shape exC4).2.2.1 1 (Nat.le_refl 1) (by decide)⟩

/-! ### Claim C5: sequence numbers after cleaning -/

lemma renumberFrom_map_number : ∀ (l : List SubtitleEntry) (i : Int),
    (renumberFrom i l).map SubtitleEntry.number
      = (List.range l.length).map (fun k : Nat => i + (k : Int)) := by
  intro l
  induction l with
  | nil => intro i; rfl
  | cons e rest ih =>
    intro i
    simp only [renumberFrom, List.map_cons, List.length_cons, List.range_succ_eq_map,
      List.map_map, ih (i + 1)]
    simp only [Nat.cast_zero, add_zero]
    congr 1
    apply List.map_congr_left
    intro k _
    simp only [Function.comp_apply, Nat.succ_eq_add_one]
    push_cast
    ring

/-- C5: the cleaned output of length `N` carries sequence numbers
exactly `1, 2, ..., N` in list order, whatever the input numbering. -/
theorem C5_renumbered_one_to_n (entries : List SubtitleEntry) :
    (perform_deep_cleaning entries).map SubtitleEntry.number
      = (List.range (perform_deep_cleaning entries).length).map
          (fun k : Nat => (k : Int) + 1) := by
  unfold perform_deep_cleaning renumber
  rw [renumberFrom_map_number, renumberFrom_length]
  apply List.map_congr_left
  intro k _
  ring

/-! ### Claim C6: emptiness of entries -/

lemma all_dropWhile_iff (p : Char → Bool) (l : List Char) :
    (∀ c ∈ l.dropWhile p, p c = true) ↔ ∀ c ∈ l, p c = true := by
  constructor
  · intro h c hc
    rw [← List.takeWhile_append_dropWhile (p := p) (l := l), List.mem_append] at hc
    rcases hc with hc | hc
    · exact List.mem_takeWhile_imp hc
    · exact h c hc
  · intro h c hc
    exact h c ((List.dropWhile_sublist (p := p)).subset hc)

lemma stripChars_eq_nil_iff (l : List Char) :
    stripChars l = [] ↔ ∀ c ∈ l, pyIsSpace c = true := by
  unfold stripChars
  rw [List.reverse_eq_nil_iff, List.dropWhile_eq_nil_iff]
  constructor
  · intro h
    rw [← all_dropWhile_iff pyIsSpace l]
    intro c hc
    exact h c (by simpa using hc)
  · intro h c hc
    have : c ∈ l.dropWhile pyIsSpace := by simpa using hc
    exact h c ((List.dropWhile_sublist (p := pyIsSpace)).subset this)

lemma pyStrip_eq_empty_iff (s : String) :
    pyStrip s = "" ↔ ∀ c ∈ s.data, pyIsSpace c = true := by
  rw [pyStrip, String.ext_iff]
  exact stripChars_eq_nil_iff s.data

/-- C6: no entry of the cleaned output is empty; and an entry is empty
exactly when none of its raw lines contains a non-whitespace character
(so a whitespace-only line does not count as content). -/
theorem C6_no_empty_entries (entries : List SubtitleEntry) :
    (∀ e ∈ perform_deep_cleaning entries, e.is_empty = false)
    ∧ (∀ e : SubtitleEntry,
        e.is_empty = true ↔ ∀ line ∈ e.text_lines, ∀ c ∈ line.data, pyIsSpace c = true) := by
  constructor
  · intro e he
    exact mem_perform_deep_cleaning_not_empty he
  · intro e
    simp only [SubtitleEntry.is_empty, Bool.not_eq_true', List.any_eq_false, decide_eq_true_eq,
      not_not]
    constructor
    · intro h line hline
      exact (pyStrip_eq_empty_iff line).mp (h line hline)
    · intro h line hline
      exact (pyStrip_eq_empty_iff line).mpr (h line hline)

/-- Witness for `C6_no_empty_entries`: on a concrete input whose second
entry has only the line "   ", the first entry survives non-empty and
the whitespace-only entry is judged empty. -/
theorem C6_no_empty_entries_witness :
    (⟨1, "00:00:00,000", "00:00:01,000", ["A"]⟩ : SubtitleEntry).is_empty = false
    ∧ (⟨2, "00:00:01,000", "00:00:02,000", ["   "]⟩ : SubtitleEntry).is_empty = true :=
  ⟨(C6_no_empty_entries
      [⟨1, "00:00:00,000", "00:00:01,000", ["A"]⟩,
       ⟨2, "00:00:01,000", "00:00:02,000", ["   "]⟩]).1
      ⟨1, "00:00:00,000", "00:00:01,000", ["A"]⟩ (by decide),
   (C6_no_empty_entries []).2
      ⟨2, "00:00:01,000", "00:00:02,000", ["   "]⟩ |>.mpr (by decide)⟩

/-! ### Claim C3: the per-pair step of a pass -/

lemma trimFirst_eq_tail (e : SubtitleEntry) :
    trimFirst e = { e with text_lines := e.text_lines.tail } := by
  unfold trimFirst
  rcases e with ⟨n, st, et, tl⟩
  match tl with
  | [] => rfl
  | [x] => rfl
  | x :: y :: l => simp [List.drop_one]

lemma is_empty_false_iff (e : SubtitleEntry) :
    e.is_empty = false ↔ e.get_cleaned_lines ≠ [] := by
  unfold SubtitleEntry.is_empty SubtitleEntry.get_cleaned_lines
  rw [Ne, List.filter_eq_nil_iff]
  simp

lemma dupCondition_iff {e1 e2 : SubtitleEntry}
    (h1 : e1.is_empty = false) (h2 : e2.is_empty = false) :
    dupCondition e1 e2 = true ↔
      e2.get_cleaned_lines.head? = e1.get_cleaned_lines.getLast? := by
  have hc1 : e1.get_cleaned_lines ≠ [] := (is_empty_false_iff e1).mp h1
  have hc2 : e2.get_cleaned_lines ≠ [] := (is_empty_false_iff e2).mp h2
  obtain ⟨a, ha⟩ : ∃ a, e2.get_cleaned_lines.head? = some a := by
    cases hx : e2.get_cleaned_lines with
    | nil => exact absurd hx hc2
    | cons x xs => exact ⟨x, rfl⟩
  obtain ⟨b, hb⟩ : ∃ b, e1.get_cleaned_lines.getLast? = some b :=
    ⟨e1.get_cleaned_lines.getLast hc1, List.getLast?_eq_getLast _ hc1⟩
  unfold dupCondition
  simp only [ha, hb, Bool.and_eq_true, Bool.not_eq_true', List.isEmpty_eq_false,
    beq_iff_eq, Option.getD_some, Option.some.injEq]
  constructor
  · rintro ⟨⟨_, _⟩, h⟩; exact h
  · intro h
    exact ⟨⟨hc2, hc1⟩, h⟩

/-- C3: for a pair of consecutive entries that both have a non-empty
line, a pass compares the first non-empty line of the second against the
last non-empty line of the first; on a match the first raw line of the
second entry is removed (empty list when it had at most one raw line),
the entry is dropped entirely when no non-empty line remains, and is
appended trimmed otherwise; without a match it is appended unchanged.
(The continuation `cleanGo` processes the remaining entries against the
possibly-trimmed state, so every later consecutive pair is an instance
of this same statement.) -/
theorem C3_pair_step (e1 e2 : SubtitleEntry) (rest : List SubtitleEntry)
    (h1 : e1.is_empty = false) (h2 : e2.is_empty = false) :
    remove_duplicates (e1 :: e2 :: rest)
      = if e2.get_cleaned_lines.head? = e1.get_cleaned_lines.getLast? then
          (if SubtitleEntry.is_empty { e2 with text_lines := e2.text_lines.tail } then
            e1 :: cleanGo { e2 with text_lines := e2.text_lines.tail } rest
          else
            e1 :: { e2 with text_lines := e2.text_lines.tail }
              :: cleanGo { e2 with text_lines := e2.text_lines.tail } rest)
        else e1 :: e2 :: cleanGo e2 rest := by
  rw [remove_duplicates_eq_spec]
  show e1 :: cleanGo e1 (e2 :: rest) = _
  rw [cleanGo]
  rw [if_neg (by simp [h1, h2])]
  by_cases hd : e2.get_cleaned_lines.head? = e1.get_cleaned_lines.getLast?
  · rw [if_pos ((dupCondition_iff h1 h2).mpr hd), if_pos hd]
    simp only [trimFirst_eq_tail]
    by_cases he : SubtitleEntry.is_empty { e2 with text_lines := e2.text_lines.tail } = true
    · rw [if_pos he, if_pos he]
    · rw [if_neg he, if_neg he]
  · rw [if_neg (fun hc => hd ((dupCondition_iff h1 h2).mp hc)), if_neg hd]

/-- Witness for `C3_pair_step` at a concrete matching pair. -/
theorem C3_pair_step_witness :
    (⟨1, "00:00:00,000", "00:00:01,000", ["A", "B"]⟩ : SubtitleEntry).is_empty = false
    ∧ (⟨2, "00:00:01,000", "00:00:02,000", ["B", "C"]⟩ : SubtitleEntry).is_empty = false
    ∧ remove_duplicates
        [⟨1, "00:00:00,000", "00:00:01,000", ["A", "B"]⟩,
         ⟨2, "00:00:01,000", "00:00:02,000", ["B", "C"]⟩]
      = if (⟨2, "00:00:01,000", "00:00:02,000", ["B", "C"]⟩ : SubtitleEntry).get_cleaned_lines.head?
            = (⟨1, "00:00:00,000", "00:00:01,000", ["A", "B"]⟩ :
                SubtitleEntry).get_cleaned_lines.getLast? then
          (if SubtitleEntry.is_empty
              { (⟨2, "00:00:01,000", "00:00:02,000", ["B", "C"]⟩ : SubtitleEntry) with
                text_lines := (["B", "C"] : List String).tail } then
            [⟨1, "00:00:00,000", "00:00:01,000", ["A", "B"]⟩]
          else
            [⟨1, "00:00:00,000", "00:00:01,000", ["A", "B"]⟩,
             { (⟨2, "00:00:01,000", "00:00:02,000", ["B", "C"]⟩ : SubtitleEntry) with
               text_lines := (["B", "C"] : List String).tail }])
        else
          [⟨1, "00:00:00,000", "00:00:01,000", ["A", "B"]⟩,
           ⟨2, "00:00:01,000", "00:00:02,000", ["B", "C"]⟩] := by
  refine ⟨by decide, by decide, ?_⟩
  have := C3_pair_step
    ⟨1, "00:00:00,000", "00:00:01,000", ["A", "B"]⟩
    ⟨2, "00:00:01,000", "00:00:02,000", ["B", "C"]⟩ [] (by decide) (by decide)
  simpa [cleanGo] using this

/-! ### Claim C9: the output refines the input -/

/-- One output entry refines one input entry: times are unchanged and
its lines are a suffix of the input entry's lines.  (The sequence number
is excluded: renumbering overwrites it.) -/
def entryRefines (o i : SubtitleEntry) : Prop :=
  o.start_time = i.start_time ∧ o.end_time = i.end_time ∧ o.text_lines <:+ i.text_lines

lemma entryRefines_refl (e : SubtitleEntry) : entryRefines e e :=
  ⟨rfl, rfl, List.suffix_refl _⟩

lemma entryRefines_trans {a b c : SubtitleEntry}
    (h1 : entryRefines a b) (h2 : entryRefines b c) : entryRefines a c :=
  ⟨h1.1.trans h2.1, h1.2.1.trans h2.2.1, h1.2.2.trans h2.2.2⟩

/-- The output list is an order-preserving subsequence of the input
list, entrywise related by `entryRefines`. -/
inductive Refines : List SubtitleEntry → List SubtitleEntry → Prop
  | nil : Refines [] []
  | keep {o i : SubtitleEntry} {out inp : List SubtitleEntry} :
      entryRefines o i → Refines out inp → Refines (o :: out) (i :: inp)
  | skip {i : SubtitleEntry} {out inp : List SubtitleEntry} :
      Refines out inp → Refines out (i :: inp)

lemma Refines.refl : ∀ l : List SubtitleEntry, Refines l l
  | [] => Refines.nil
  | e :: rest => Refines.keep (entryRefines_refl e) (Refines.refl rest)

lemma Refines.length_le {out inp : List SubtitleEntry} (h : Refines out inp) :
    out.length ≤ inp.length := by
  induction h with
  | nil => exact Nat.le_refl 0
  | keep _ _ ih => simpa using Nat.succ_le_succ ih
  | skip _ ih => simp; omega

lemma Refines.trans {a b c : List SubtitleEntry}
    (h1 : Refines a b) (h2 : Refines b c) : Refines a c := by
  induction h2 generalizing a with
  | nil => exact h1
  | keep hoi _ ih =>
    cases h1 with
    | keep hx hrest => exact Refines.keep (entryRefines_trans hx hoi) (ih hrest)
    | skip hrest => exact Refines.skip (ih hrest)
  | skip _ ih => exact Refines.skip (ih h1)

lemma entryRefines_trimFirst (e : SubtitleEntry) : entryRefines (trimFirst e) e := by
  rw [trimFirst_eq_tail]
  exact ⟨rfl, rfl, List.tail_suffix _⟩

lemma refines_cleanGo (rest : List SubtitleEntry) :
    ∀ prev : SubtitleEntry, Refines (cleanGo prev rest) rest := by
  induction rest with
  | nil => intro prev; exact Refines.nil
  | cons current rest ih =>
    intro prev
    rw [cleanGo]
    split
    · exact Refines.keep (entryRefines_refl current) (ih current)
    · split
      · show Refines
          (if (trimFirst current).is_empty = true then cleanGo (trimFirst current) rest
            else trimFirst current :: cleanGo (trimFirst current) rest) (current :: rest)
        split
        · exact Refines.skip (ih (trimFirst current))
        · exact Refines.keep (entryRefines_trimFirst current) (ih (trimFirst current))
      · exact Refines.keep (entryRefines_refl current) (ih current)

lemma refines_remove_duplicates (entries : List SubtitleEntry) :
    Refines (remove_duplicates entries) entries := by
  rw [remove_duplicates_eq_spec]
  cases entries with
  | nil => exact Refines.nil
  | cons e0 rest => exact Refines.keep (entryRefines_refl e0) (refines_cleanGo rest e0)

lemma refines_applyPasses : ∀ (k : Nat) (entries : List SubtitleEntry),
    Refines (applyPasses k entries) entries := by
  intro k
  induction k with
  | zero => intro entries; exact Refines.refl entries
  | succ k ih =>
    intro entries
    exact (ih (remove_duplicates entries)).trans (refines_remove_duplicates entries)

lemma refines_cleaningLoop : ∀ (fuel : Nat) (entries : List SubtitleEntry),
    Refines (cleaningLoop fuel entries) entries := by
  intro fuel
  induction fuel with
  | zero => intro entries; exact Refines.refl entries
  | succ fuel ih =>
    intro entries
    rw [cleaningLoop]
    split
    · exact refines_remove_duplicates entries
    · exact (ih (remove_duplicates entries)).trans (refines_remove_duplicates entries)

lemma refines_filter (l : List SubtitleEntry) (p : SubtitleEntry → Bool) :
    Refines (l.filter p) l := by
  induction l with
  | nil => exact Refines.nil
  | cons e rest ih =>
    by_cases h : p e = true
    · rw [List.filter_cons_of_pos h]
      exact Refines.keep (entryRefines_refl e) ih
    · rw [List.filter_cons_of_neg (by simpa using h)]
      exact Refines.skip ih

lemma refines_renumberFrom : ∀ (l : List SubtitleEntry) (i : Int),
    Refines (renumberFrom i l) l := by
  intro l
  induction l with
  | nil => intro i; exact Refines.nil
  | cons e rest ih =>
    intro i
    exact Refines.keep ⟨rfl, rfl, List.suffix_refl _⟩ (ih (i + 1))

/-- C9: the cleaned output is an order-preserving subsequence of the
input: every output entry corresponds to an input entry whose start and
end times it keeps and whose line list it ends with (only leading lines
removed); in particular the output is never longer than the input. -/
theorem C9_refinement (entries : List SubtitleEntry) :
    Refines (perform_deep_cleaning entries) entries
    ∧ (perform_deep_cleaning entries).length ≤ entries.length := by
  have h : Refines (perform_deep_cleaning entries) entries := by
    unfold perform_deep_cleaning renumber
    exact ((refines_renumberFrom _ 1).trans (refines_filter _ _)).trans
      (refines_cleaningLoop 5 entries)
  exact ⟨h, h.length_le⟩

/-! ### A backtracking regex engine

`parse_srt` uses the Python regex
`(\d+)\s*\n(\d{2}:\d{2}:\d{2},\d{3})\s*-->\s*(\d{2}:\d{2}:\d{2},\d{3})\s*\n((?:.+\n?)+?)(?:\n\s*\n|$)`
compiled with `re.MULTILINE`.  We embed Python's backtracking matcher in
the standard pattern-continuation form: the pattern is a list of items,
alternatives are tried left to right, quantifiers expand themselves at
the head of the item list (greedy: body first; lazy: continuation
first), which reproduces the chronological backtracking order of
Python's `re` engine.  Character classes cover the ASCII ranges Python
uses here (`\d` = ASCII digits, `\s` = ASCII whitespace, `.` = anything
but a newline; `$` is the `re.MULTILINE` end-of-line).  Fuel makes the
recursion structural; it bounds only the depth of the search, and the
driver supplies more than the pattern can ever need on its input. -/

/-- One item of a compiled pattern. -/
inductive RItem where
  | lit (c : Char)
  | cls (p : Char → Bool)
  | alt (r1 r2 : List RItem)
  | starG (r : List RItem)
  | starL (r : List RItem)
  | grpOpen (n : Nat)
  | grpClose (n : Nat)
  | eol

/-- Result of a match attempt: success with end position, open-group
stack and closed-group spans; definite failure; or out of fuel. -/
inductive MRes where
  | ok (endPos : Nat) (done : List (Nat × Nat × Nat))
  | fail
  | out
  deriving DecidableEq, Repr

/-- Left-biased choice on match results; running out of fuel poisons
the whole attempt.  The untried branch is a thunk so that evaluation
explores it only on failure of the first, as the Python engine does. -/
def MRes.orElse : MRes → (Unit → MRes) → MRes
  | .ok e c, _ => .ok e c
  | .fail, b => b ()
  | .out, _ => .out

/-- Close the most recently opened group with index `n`. -/
def closeGroup (n : Nat) (endPos : Nat) (opens : List (Nat × Nat))
    (done : List (Nat × Nat × Nat)) : List (Nat × Nat) × List (Nat × Nat × Nat) :=
  match opens with
  | [] => ([], done)
  | (m, st) :: rest =>
    if m = n then (rest, (n, st, endPos) :: done)
    else
      let r := closeGroup n endPos rest done
      ((m, st) :: r.1, r.2)

/-- The backtracking matcher: match the item list against `s` starting
at `pos`, with currently open groups `opens` and closed groups `done`. -/
def mrun : Nat → List Char → List RItem → Nat → List (Nat × Nat) →
    List (Nat × Nat × Nat) → MRes
  | 0, _, _, _, _, _ => .out
  | fuel + 1, s, items, pos, opens, done =>
    match items with
    | [] => .ok pos done
    | it :: rest =>
      match it with
      | .lit c =>
        match s.get? pos with
        | some c' => if c' = c then mrun fuel s rest (pos + 1) opens done else .fail
        | none => .fail
      | .cls p =>
        match s.get? pos with
        | some c' => if p c' then mrun fuel s rest (pos + 1) opens done else .fail
        | none => .fail
      | .alt r1 r2 =>
        (mrun fuel s (r1 ++ rest) pos opens done).orElse
          (fun _ => mrun fuel s (r2 ++ rest) pos opens done)
      | .starG r =>
        (mrun fuel s (r ++ .starG r :: rest) pos opens done).orElse
          (fun _ => mrun fuel s rest pos opens done)
      | .starL r =>
        (mrun fuel s rest pos opens done).orElse
          (fun _ => mrun fuel s (r ++ .starL r :: rest) pos opens done)
      | .grpOpen n => mrun fuel s rest pos ((n, pos) :: opens) done
      | .grpClose n =>
        let oc := closeGroup n pos opens done
        mrun fuel s rest pos oc.1 oc.2
      | .eol =>
        if pos = s.length ∨ s.get? pos = some '\n' then mrun fuel s rest pos opens done
        else .fail

/-- `\s` of the pattern. -/
def wsCls : RItem := .cls pyIsSpace

/-- `\d` of the pattern. -/
def digitCls : RItem := .cls Char.isDigit

/-- `.` of the pattern (no DOTALL). -/
def dotCls : RItem := .cls (fun c => c ≠ '\n')

/-- `\d{2}:\d{2}:\d{2},\d{3}`. -/
def tsItems : List RItem :=
  [digitCls, digitCls, .lit ':', digitCls, digitCls, .lit ':',
   digitCls, digitCls, .lit ',', digitCls, digitCls, digitCls]

/-- `.+\n?`: one repetition of the text-line body. -/
def lineRep : List RItem :=
  [dotCls, .starG [dotCls], .alt [.lit '\n'] []]

/-- The compiled block pattern of `parse_srt`. -/
def blockItems : List RItem :=
  [.grpOpen 1, digitCls, .starG [digitCls], .grpClose 1,
   .starG [wsCls], .lit '\n',
   .grpOpen 2] ++ tsItems ++ [.grpClose 2,
   .starG [wsCls], .lit '-', .lit '-', .lit '>', .starG [wsCls],
   .grpOpen 3] ++ tsItems ++ [.grpClose 3,
   .starG [wsCls], .lit '\n',
   .grpOpen 4] ++ lineRep ++ [.starL lineRep, .grpClose 4,
   .alt [.lit '\n', .starG [wsCls], .lit '\n'] [.eol]]

/-- Fuel that amply covers the depth of the search on input `s`. -/
def mrunFuel (s : List Char) : Nat :=
  64 * (s.length + 2)

/-- The spans of the four capture groups of a successful block match. -/
def groupSpan (done : List (Nat × Nat × Nat)) (n : Nat) : Option (Nat × Nat) :=
  (done.find? (fun t => t.1 == n)).map (fun t => (t.2.1, t.2.2))

/-- `re.finditer`: scan left to right, try the pattern at each position,
continue after each non-overlapping match (empty matches advance by
one; the block pattern never matches empty). -/
def finditerLoop : Nat → List Char → Nat → List (Nat × List (Nat × Nat × Nat))
  | 0, _, _ => []
  | fuel + 1, s, pos =>
    if pos ≤ s.length then
      match mrun (mrunFuel s) s blockItems pos [] [] with
      | .ok endPos done =>
        if endPos = pos then (endPos, done) :: finditerLoop fuel s (pos + 1)
        else (endPos, done) :: finditerLoop fuel s endPos
      | .fail => finditerLoop fuel s (pos + 1)
      | .out => []
    else []

/-- All block matches of `content`. -/
def finditer (s : List Char) : List (Nat × List (Nat × Nat × Nat)) :=
  finditerLoop (s.length + 1) s 0

/-- The characters of `s` from `a` (inclusive) to `b` (exclusive). -/
def sliceChars (s : List Char) (a b : Nat) : List Char :=
  (s.drop a).take (b - a)

/-- Python `text.split('\n')` (keeps empty pieces). -/
def splitNl : List Char → List (List Char)
  | [] => [[]]
  | c :: rest =>
    if c = '\n' then [] :: splitNl rest
    else
      match splitNl rest with
      | [] => [[c]]
      | h :: t => (c :: h) :: t

/-- Python `int` on a digit string. -/
def digitsToNat (l : List Char) : Nat :=
  l.foldl (fun a c => 10 * a + (c.toNat - 48)) 0

/-- Build one `SubtitleEntry` from the capture groups of a block match
(lines 54-62 of the source): group 1 is the number, groups 2 and 3 the
timestamps, group 4 the text block, split on newlines with empty
strings discarded. -/
def entryOfMatch (s : List Char) (done : List (Nat × Nat × Nat)) : Option SubtitleEntry :=
  match groupSpan done 1, groupSpan done 2, groupSpan done 3, groupSpan done 4 with
  | some (a1, b1), some (a2, b2), some (a3, b3), some (a4, b4) =>
    some
      { number := (digitsToNat (sliceChars s a1 b1) : Int)
        start_time := String.mk (sliceChars s a2 b2)
        end_time := String.mk (sliceChars s a3 b3)
        text_lines := ((splitNl (sliceChars s a4 b4)).map String.mk).filter (fun l => l ≠ "") }
  | _, _, _, _ => none

/-- `parse_srt` from `subtitle_cleaner.py`. -/
def parse_srt (content : String) : List SubtitleEntry :=
  (finditer content.data).filterMap (fun m => entryOfMatch content.data m.2)

/-- `format_srt` from `subtitle_cleaner.py`: number line, timing line,
the text lines verbatim, and an empty separator line per entry, joined
with newlines. -/
def format_srt (entries : List SubtitleEntry) : String :=
  String.intercalate "\n"
    (entries.flatMap (fun entry =>
      [toString entry.number, entry.start_time ++ " --> " ++ entry.end_time]
        ++ entry.text_lines ++ [""]))

/-! ### Claim C7: which lines does the parser store? -/

/-- C7 (counterexample): a parsed entry *can* contain a whitespace-only
line: on this input the single matched block stores `["  "]`, a
non-empty line made of whitespace only, contradicting the claim that no
whitespace-only line appears in any parsed entry's `textLines`. -/
theorem C7_counterexample :
    parse_srt "1\n00:00:00,000 --> 00:00:01,000\n  "
      = [⟨1, "00:00:00,000", "00:00:01,000", ["  "]⟩]
    ∧ "  " ∈ (⟨1, "00:00:00,000", "00:00:01,000", ["  "]⟩ : SubtitleEntry).text_lines
    ∧ (∀ c ∈ ("  " : String).data, pyIsSpace c = true) := by
  refine ⟨by decide, by decide, by decide⟩

/-- C7 (amended): for every matched block the parser stores exactly the
lines of the block's text portion that are non-empty *strings*, in
original order — the empty string is discarded by the
`if line` filter, but a whitespace-only line is kept: every stored line
is a non-empty string, and the stored lines are exactly the newline-split
pieces of one contiguous slice of the input with the empty pieces
removed. -/
theorem C7_stored_lines (content : String) :
    ∀ e ∈ parse_srt content,
      (∀ line ∈ e.text_lines, line ≠ "")
      ∧ ∃ a b, e.text_lines
          = ((splitNl (sliceChars content.data a b)).map String.mk).filter
              (fun l => l ≠ "") := by
  intro e he
  rw [parse_srt, List.mem_filterMap] at he
  obtain ⟨m, _, hm⟩ := he
  have hlines : ∃ a b, e.text_lines
      = ((splitNl (sliceChars content.data a b)).map String.mk).filter (fun l => l ≠ "") := by
    unfold entryOfMatch at hm
    rcases h1 : groupSpan m.2 1 with _ | ⟨a1, b1⟩ <;> rw [h1] at hm
    · exact absurd hm (by simp)
    rcases h2 : groupSpan m.2 2 with _ | ⟨a2, b2⟩ <;> rw [h2] at hm
    · exact absurd hm (by simp)
    rcases h3 : groupSpan m.2 3 with _ | ⟨a3, b3⟩ <;> rw [h3] at hm
    · exact absurd hm (by simp)
    rcases h4 : groupSpan m.2 4 with _ | ⟨a4, b4⟩ <;> rw [h4] at hm
    · exact absurd hm (by simp)
    simp only [Option.some.injEq] at hm
    exact ⟨a4, b4, by rw [← hm]⟩
  refine ⟨?_, hlines⟩
  intro line hline
  obtain ⟨a, b, hl⟩ := hlines
  rw [hl] at hline
  have := List.of_mem_filter hline
  simpa using this

/-- Witness for `C7_stored_lines` at a concrete one-block input. -/
theorem C7_stored_lines_witness :
    (⟨1, "00:00:00,000", "00:00:01,000", ["A"]⟩ : SubtitleEntry)
        ∈ parse_srt "1\n00:00:00,000 --> 00:00:01,000\nA"
    ∧ "A" ∈ (⟨1, "00:00:00,000", "00:00:01,000", ["A"]⟩ : SubtitleEntry).text_lines
    ∧ ("A" : String) ≠ "" :=
  ⟨by decide, by decide,
    (C7_stored_lines "1\n00:00:00,000 --> 00:00:01,000\nA"
        ⟨1, "00:00:00,000", "00:00:01,000", ["A"]⟩ (by decide)).1 "A" (by decide)⟩

/-! ### Claim C10: the driver -/

/-- The usage message of `main` (line 166 of the source). -/
def usageMsg : String :=
  "Usage: python subtitle_cleaner_v2.py input.srt output.srt"

/-- `main` from `subtitle_cleaner.py`, with effects made explicit:
`argv` is the full `sys.argv` (program name included), `readF` and
`writeF` are the file system (`Except.error` is a raised exception,
e.g. an I/O error; reading, which Python performs with
`errors='replace'`, yields the decoded text).  The result is the exit
status together with the lines printed to standard output.  Parsing,
cleaning and formatting are total, so the exceptions of the `try` block
arise from the two file operations. -/
def mainModel (argv : List String) (readF : String → Except String String)
    (writeF : String → String → Except String Unit) : Nat × List String :=
  if argv.length ≠ 3 then
    (1, [usageMsg])
  else
    let input_file := argv.getD 1 ""
    let output_file := argv.getD 2 ""
    match readF input_file with
    | .error e => (1, ["Error processing file: " ++ e])
    | .ok content =>
      let entries := parse_srt content
      let cleaned_entries := perform_deep_cleaning entries
      let cleaned_content := format_srt cleaned_entries
      match writeF output_file cleaned_content with
      | .error e => (1, ["Error processing file: " ++ e])
      | .ok _ =>
        (0, ["Successfully cleaned subtitles from " ++ input_file ++ " to " ++ output_file,
             "Original entries: " ++ toString entries.length ++ ", Cleaned entries: "
               ++ toString cleaned_entries.length])

/-- C10: the driver exits 1 exactly on a wrong argument count (usage
message printed, and the result does not depend on the file system at
all — no file access) or on an exception during processing (message
`"Error processing file: <message>"`); with two arguments and no
exception it exits 0 after printing the success message and the two
counts. -/
theorem C10_driver_exits (argv : List String) (readF : String → Except String String)
    (writeF : String → String → Except String Unit) :
    (argv.length ≠ 3 →
      mainModel argv readF writeF = (1, [usageMsg])
      ∧ ∀ readF2 writeF2, mainModel argv readF2 writeF2 = (1, [usageMsg]))
    ∧ (∀ msg, argv.length = 3 → readF (argv.getD 1 "") = .error msg →
        mainModel argv readF writeF = (1, ["Error processing file: " ++ msg]))
    ∧ (∀ content msg, argv.length = 3 → readF (argv.getD 1 "") = .ok content →
        writeF (argv.getD 2 "")
            (format_srt (perform_deep_cleaning (parse_srt content))) = .error msg →
        mainModel argv readF writeF = (1, ["Error processing file: " ++ msg]))
    ∧ (∀ content, argv.length = 3 → readF (argv.getD 1 "") = .ok content →
        writeF (argv.getD 2 "")
            (format_srt (perform_deep_cleaning (parse_srt content))) = .ok () →
        mainModel argv readF writeF =
          (0, ["Successfully cleaned subtitles from " ++ argv.getD 1 "" ++ " to "
                 ++ argv.getD 2 "",
               "Original entries: " ++ toString (parse_srt content).length
                 ++ ", Cleaned entries: "
                 ++ toString (perform_deep_cleaning (parse_srt content)).length])) := by
  refine ⟨?_, ?_, ?_, ?_⟩
  · intro h
    constructor
    · rw [mainModel, if_pos h]
    · intro readF2 writeF2
      rw [mainModel, if_pos h]
  · intro msg h hr
    rw [mainModel, if_neg (by omega)]
    simp only [hr]
  · intro content msg h hr hw
    rw [mainModel, if_neg (by omega)]
    simp only [hr, hw]
  · intro content h hr hw
    rw [mainModel, if_neg (by omega)]
    simp only [hr, hw]

/-- Witness for `C10_driver_exits`: with one argument the driver prints
the usage message and exits 1; with two arguments and a working file
system it exits 0. -/
theorem C10_driver_exits_witness :
    mainModel ["prog"] (fun _ => .ok "") (fun _ _ => .ok ()) = (1, [usageMsg])
    ∧ mainModel ["prog", "in.srt", "out.srt"] (fun _ => .ok "") (fun _ _ => .ok ())
        = (0, ["Successfully cleaned subtitles from in.srt to out.srt",
               "Original entries: 0, Cleaned entries: 0"]) :=
  ⟨((C10_driver_exits ["prog"] (fun _ => .ok "") (fun _ _ => .ok ())).1 (by decide)).1,
   by
    have := (C10_driver_exits ["prog", "in.srt", "out.srt"] (fun _ => .ok "")
        (fun _ _ => .ok ())).2.2.2 "" (by decide) rfl rfl
    simpa using this⟩

/-! ### Claim C8: round trip.  Layout of the serialized form -/

/-- Join character lines with newlines (no trailing newline). -/
def joinNl : List (List Char) → List Char
  | [] => []
  | [l] => l
  | l :: l2 :: rest => l ++ '\n' :: joinNl (l2 :: rest)

/-- The characters a single entry contributes to the serialized form
(number line, timing line, text lines; no trailing separator). -/
def blockChars (e : SubtitleEntry) : List Char :=
  (toString e.number).data ++ '\n' :: e.start_time.data
    ++ ' ' :: '-' :: '-' :: '>' :: ' ' :: e.end_time.data
    ++ '\n' :: joinNl (e.text_lines.map String.data)

/-- The characters of the whole serialized form: blocks separated by a
blank line, a single newline after the last block. -/
def blocksChars : List SubtitleEntry → List Char
  | [] => []
  | [e] => blockChars e ++ ['\n']
  | e :: e2 :: rest => blockChars e ++ '\n' :: '\n' :: blocksChars (e2 :: rest)

lemma intercalate_go_data : ∀ (bs : List String) (a s : String),
    (String.intercalate.go a s bs).data
      = a.data ++ bs.flatMap (fun b => s.data ++ b.data) := by
  intro bs
  induction bs with
  | nil => intro a s; simp [String.intercalate.go]
  | cons b bs ih =>
    intro a s
    simp only [String.intercalate.go, ih, List.flatMap_cons, String.data_append]
    simp [List.append_assoc]

lemma flatMap_lines_eq_joinNl : ∀ (ls : List String), ls ≠ [] →
    ls.flatMap (fun l => '\n' :: l.data) = '\n' :: joinNl (ls.map String.data) := by
  intro ls
  induction ls with
  | nil => intro h; exact absurd rfl h
  | cons l ls ih =>
    intro _
    cases ls with
    | nil => simp [joinNl]
    | cons l2 ls2 =>
      simp only [List.flatMap_cons, ih (by simp), List.map_cons, joinNl]
      simp

lemma flatMap_block_pieces (entries : List SubtitleEntry)
    (hl : ∀ e ∈ entries, e.text_lines ≠ []) :
    (entries.flatMap (fun entry =>
        [toString entry.number, entry.start_time ++ " --> " ++ entry.end_time]
          ++ entry.text_lines ++ [""])).flatMap (fun b => '\n' :: b.data)
      = if entries.isEmpty then [] else '\n' :: blocksChars entries := by
  induction entries with
  | nil => simp
  | cons e rest ih =>
    have hrest := ih (fun x hx => hl x (List.mem_cons_of_mem e hx))
    have he : e.text_lines ≠ [] := hl e (List.mem_cons_self e rest)
    simp only [List.cons_append, List.nil_append] at hrest
    simp only [List.flatMap_cons, List.flatMap_append, List.cons_append, List.nil_append,
      List.flatMap_nil]
    rw [flatMap_lines_eq_joinNl e.text_lines he, hrest]
    cases rest with
    | nil =>
      simp only [List.isEmpty_nil, if_true, List.isEmpty_cons, if_false, List.append_nil]
      simp [blocksChars, blockChars, String.data_append, List.append_assoc]
    | cons e2 rest2 =>
      simp only [List.isEmpty_cons, if_false]
      simp [blocksChars, blockChars, String.data_append, List.append_assoc]

/-- The serialized form, at the character level. -/
lemma format_srt_data (entries : List SubtitleEntry)
    (hl : ∀ e ∈ entries, e.text_lines ≠ []) :
    (format_srt entries).data = blocksChars entries := by
  cases entries with
  | nil => rfl
  | cons e rest =>
    have hp := flatMap_block_pieces (e :: rest) hl
    simp only [List.isEmpty_cons, if_false, List.flatMap_cons, List.flatMap_append,
      List.cons_append, List.nil_append, List.flatMap_nil] at hp
    unfold format_srt
    simp only [List.flatMap_cons, List.flatMap_append, List.cons_append, List.nil_append,
      List.flatMap_nil]
    rw [show ∀ T : List String, String.intercalate "\n" (toString e.number :: T)
          = String.intercalate.go (toString e.number) "\n" T from fun T => rfl]
    rw [intercalate_go_data]
    simp only [show ("\n" : String).data = ['\n'] from rfl, List.singleton_append,
      List.flatMap_cons, List.flatMap_append, List.cons_append, List.nil_append,
      List.flatMap_nil]
    rw [flatMap_lines_eq_joinNl e.text_lines (hl e (List.mem_cons_self e rest))] at hp ⊢
    simp only [List.cons_append, List.append_assoc, List.singleton_append] at hp ⊢
    injection hp with _ h2

/-! ### Characters of numeric literals -/

lemma digitChar_isDigit {n : Nat} (h : n < 10) : (Nat.digitChar n).isDigit = true := by
  interval_cases n <;> decide

lemma toDigitsCore_digits : ∀ (f n : Nat) (ds : List Char),
    (∀ c ∈ ds, c.isDigit = true) → ∀ c ∈ Nat.toDigitsCore 10 f n ds, c.isDigit = true := by
  intro f
  induction f with
  | zero => intro n ds h; exact h
  | succ f ih =>
    intro n ds h c hc
    rw [Nat.toDigitsCore] at hc
    by_cases hz : n / 10 = 0
    · rw [if_pos hz] at hc
      rcases List.mem_cons.mp hc with h1 | h1
      · rw [h1]; exact digitChar_isDigit (Nat.mod_lt n (by omega))
      · exact h c h1
    · rw [if_neg hz] at hc
      refine ih (n / 10) _ ?_ c hc
      intro x hx
      rcases List.mem_cons.mp hx with h1 | h1
      · rw [h1]; exact digitChar_isDigit (Nat.mod_lt n (by omega))
      · exact h x h1

lemma toDigitsCore_ne_nil : ∀ (f n : Nat) (ds : List Char), ds ≠ [] →
    Nat.toDigitsCore 10 f n ds ≠ [] := by
  intro f
  induction f with
  | zero => intro n ds h; exact h
  | succ f ih =>
    intro n ds h
    rw [Nat.toDigitsCore]
    by_cases hz : n / 10 = 0
    · rw [if_pos hz]; simp
    · rw [if_neg hz]; exact ih (n / 10) _ (by simp)

lemma natRepr_digits (n : Nat) : ∀ c ∈ (Nat.repr n).data, c.isDigit = true := by
  intro c hc
  have : (Nat.repr n).data = Nat.toDigitsCore 10 (n + 1) n [] := rfl
  rw [this] at hc
  exact toDigitsCore_digits (n + 1) n [] (by simp) c hc

lemma natRepr_ne_nil (n : Nat) : (Nat.repr n).data ≠ [] := by
  have : (Nat.repr n).data = Nat.toDigitsCore 10 (n + 1) n [] := rfl
  rw [this, Nat.toDigitsCore]
  by_cases hz : n / 10 = 0
  · rw [if_pos hz]; simp
  · rw [if_neg hz]; exact toDigitsCore_ne_nil n (n / 10) _ (by simp)

/-- `str(i)` is an optional minus sign followed by the digits of `|i|`. -/
lemma intRepr_data (i : Int) :
    (toString i).data = (if i < 0 then ['-'] else []) ++ (Nat.repr i.natAbs).data := by
  cases i with
  | ofNat m =>
    have h1 : toString (Int.ofNat m) = Nat.repr m := rfl
    have hx : ¬(Int.ofNat m < 0) := not_lt.mpr (Int.ofNat_nonneg m)
    rw [h1, if_neg hx]
    rfl
  | negSucc m =>
    have h1 : toString (Int.negSucc m) = "-" ++ Nat.repr (m + 1) := rfl
    rw [h1, if_pos (Int.negSucc_lt_zero m), String.data_append]
    rfl

lemma space_not_digit {c : Char} (h : pyIsSpace c = true) : c.isDigit = false := by
  unfold pyIsSpace at h
  simp only [Bool.or_eq_true, decide_eq_true_eq] at h
  rcases h with ((((h | h) | h) | h) | h) | h <;> subst h <;> decide

lemma isDigit_not_space {c : Char} (h : c.isDigit = true) : pyIsSpace c = false := by
  cases hps : pyIsSpace c
  · rfl
  · rw [space_not_digit hps] at h
    cases h

lemma isDigit_ne_nl {c : Char} (h : c.isDigit = true) : c ≠ '\n' := by
  intro hc
  subst hc
  exact absurd h (by decide)

/-- The first character of `str(i)` is a digit or a minus sign, and in
particular not whitespace and not a newline. -/
lemma intRepr_head (i : Int) : ∃ c rest, (toString i).data = c :: rest
    ∧ pyIsSpace c = false ∧ c ≠ '\n' := by
  rw [intRepr_data]
  rcases hd : (Nat.repr i.natAbs).data with _ | ⟨c, cs⟩
  · exact absurd hd (natRepr_ne_nil _)
  · have hc : c.isDigit = true := natRepr_digits _ c (by rw [hd]; simp)
    by_cases hneg : i < 0
    · exact ⟨'-', _, by rw [if_pos hneg]; rfl, by decide, by decide⟩
    · exact ⟨c, cs, by rw [if_neg hneg]; simp, isDigit_not_space hc, isDigit_ne_nl hc⟩

/-! ### splitNl inverts joinNl -/

lemma splitNl_join : ∀ (l rest : List Char), '\n' ∉ l →
    splitNl (l ++ '\n' :: rest) = l :: splitNl rest := by
  intro l
  induction l with
  | nil => intro rest h; simp [splitNl]
  | cons a l ih =>
    intro rest h
    have ha : a ≠ '\n' := fun hh => h (by rw [hh]; exact List.mem_cons_self _ _)
    rw [List.cons_append, splitNl, if_neg ha, ih rest (fun hh => h (List.mem_cons_of_mem a hh))]

lemma splitNl_joinNl_nl : ∀ (ls : List (List Char)), ls ≠ [] →
    (∀ l ∈ ls, '\n' ∉ l) → splitNl (joinNl ls ++ ['\n']) = ls ++ [[]] := by
  intro ls
  induction ls with
  | nil => intro h; exact absurd rfl h
  | cons l ls ih =>
    intro _ hnl
    cases ls with
    | nil =>
      have : joinNl [l] ++ ['\n'] = l ++ '\n' :: [] := by simp [joinNl]
      rw [this, splitNl_join l [] (hnl l (by simp))]
      rfl
    | cons l2 ls2 =>
      have : joinNl (l :: l2 :: ls2) ++ ['\n'] = l ++ '\n' :: (joinNl (l2 :: ls2) ++ ['\n']) := by
        simp [joinNl]
      rw [this, splitNl_join l _ (hnl l (by simp)),
        ih (by simp) (fun x hx => hnl x (List.mem_cons_of_mem l hx))]
      rfl

lemma mk_data_eq (l : String) : String.mk l.data = l := rfl

lemma mk_eq_empty_iff (l : List Char) : String.mk l = "" ↔ l = [] := by
  rw [String.ext_iff]

/-- Splitting the serialized text block on newlines and discarding the
empty pieces recovers the original lines, provided none is empty or
contains a newline. -/
lemma textLines_roundtrip (ls : List String) (hne : ls ≠ [])
    (h : ∀ l ∈ ls, l ≠ "" ∧ '\n' ∉ l.data) :
    ((splitNl (joinNl (ls.map String.data) ++ ['\n'])).map String.mk).filter
        (fun l => l ≠ "") = ls := by
  rw [splitNl_joinNl_nl (ls.map String.data) (by simpa using hne)
      (by
        intro l hl
        obtain ⟨x, hx, rfl⟩ := List.mem_map.mp hl
        exact (h x hx).2)]
  rw [List.map_append, List.map_map]
  have hmap : ∀ l : List String, l.map (String.mk ∘ String.data) = l := by
    intro l
    induction l with
    | nil => rfl
    | cons a t iht =>
      rw [List.map_cons, iht]
      rfl
  rw [hmap]
  rw [List.filter_append]
  have h1 : ls.filter (fun l => l ≠ "") = ls :=
    List.filter_eq_self.mpr (fun x hx => by simpa using (h x hx).1)
  have h2 : ([[]].map String.mk).filter (fun l => (l ≠ "" : Bool)) = [] := rfl
  rw [h1, h2, List.append_nil]

/-! ### Stable evaluation of the matcher -/

/-- With any fuel of at least `f0`, the matcher yields exactly `r` from
this state. -/
def Stably (s : List Char) (items : List RItem) (pos : Nat) (opens : List (Nat × Nat))
    (done : List (Nat × Nat × Nat)) (f0 : Nat) (r : MRes) : Prop :=
  ∀ f, f0 ≤ f → mrun f s items pos opens done = r

lemma Stably.mono {s items pos opens done f0 f1 r} (h01 : f0 ≤ f1)
    (h : Stably s items pos opens done f0 r) : Stably s items pos opens done f1 r :=
  fun f hf => h f (Nat.le_trans h01 hf)

lemma stably_nil (s : List Char) (pos : Nat) (opens : List (Nat × Nat))
    (done : List (Nat × Nat × Nat)) : Stably s [] pos opens done 1 (.ok pos done) := by
  intro f hf
  obtain ⟨g, rfl⟩ : ∃ g, f = g + 1 := ⟨f - 1, by omega⟩
  rfl

lemma stably_lit {s : List Char} {k : List RItem} {pos : Nat} {opens done f0 r} {c : Char}
    (hc : s.get? pos = some c) (h : Stably s k (pos + 1) opens done f0 r) :
    Stably s (.lit c :: k) pos opens done (f0 + 1) r := by
  intro f hf
  obtain ⟨g, rfl⟩ : ∃ g, f = g + 1 := ⟨f - 1, by omega⟩
  rw [mrun, hc]
  show (if c = c then mrun g s k (pos + 1) opens done else MRes.fail) = r
  rw [if_pos rfl]
  exact h g (by omega)

lemma stably_lit_fail {s : List Char} {k : List RItem} {pos : Nat} {opens done} {c c' : Char}
    (hc : s.get? pos = some c') (hne : c' ≠ c) :
    Stably s (.lit c :: k) pos opens done 1 .fail := by
  intro f hf
  obtain ⟨g, rfl⟩ : ∃ g, f = g + 1 := ⟨f - 1, by omega⟩
  rw [mrun, hc]
  show (if c' = c then mrun g s k (pos + 1) opens done else MRes.fail) = MRes.fail
  rw [if_neg hne]

lemma stably_lit_eof {s : List Char} {k : List RItem} {pos : Nat} {opens done} {c : Char}
    (hc : s.get? pos = none) :
    Stably s (.lit c :: k) pos opens done 1 .fail := by
  intro f hf
  obtain ⟨g, rfl⟩ : ∃ g, f = g + 1 := ⟨f - 1, by omega⟩
  rw [mrun, hc]

lemma stably_cls {s : List Char} {k : List RItem} {pos : Nat} {opens done f0 r}
    {p : Char → Bool} {c : Char}
    (hc : s.get? pos = some c) (hp : p c = true) (h : Stably s k (pos + 1) opens done f0 r) :
    Stably s (.cls p :: k) pos opens done (f0 + 1) r := by
  intro f hf
  obtain ⟨g, rfl⟩ : ∃ g, f = g + 1 := ⟨f - 1, by omega⟩
  rw [mrun, hc]
  show (if p c then mrun g s k (pos + 1) opens done else MRes.fail) = r
  rw [if_pos hp]
  exact h g (by omega)

lemma stably_cls_fail {s : List Char} {k : List RItem} {pos : Nat} {opens done}
    {p : Char → Bool} {c : Char} (hc : s.get? pos = some c) (hp : p c = false) :
    Stably s (.cls p :: k) pos opens done 1 .fail := by
  intro f hf
  obtain ⟨g, rfl⟩ : ∃ g, f = g + 1 := ⟨f - 1, by omega⟩
  rw [mrun, hc]
  show (if p c then mrun g s k (pos + 1) opens done else MRes.fail) = MRes.fail
  rw [if_neg (by simp [hp])]

lemma stably_cls_eof {s : List Char} {k : List RItem} {pos : Nat} {opens done}
    {p : Char → Bool} (hc : s.get? pos = none) :
    Stably s (.cls p :: k) pos opens done 1 .fail := by
  intro f hf
  obtain ⟨g, rfl⟩ : ∃ g, f = g + 1 := ⟨f - 1, by omega⟩
  rw [mrun, hc]

lemma stably_grpOpen {s : List Char} {k : List RItem} {pos : Nat} {opens done f0 r} {n : Nat}
    (h : Stably s k pos ((n, pos) :: opens) done f0 r) :
    Stably s (.grpOpen n :: k) pos opens done (f0 + 1) r := by
  intro f hf
  obtain ⟨g, rfl⟩ : ∃ g, f = g + 1 := ⟨f - 1, by omega⟩
  rw [mrun]
  exact h g (by omega)

lemma stably_grpClose {s : List Char} {k : List RItem} {pos : Nat} {opens done f0 r} {n : Nat}
    (h : Stably s k pos (closeGroup n pos opens done).1 (closeGroup n pos opens done).2 f0 r) :
    Stably s (.grpClose n :: k) pos opens done (f0 + 1) r := by
  intro f hf
  obtain ⟨g, rfl⟩ : ∃ g, f = g + 1 := ⟨f - 1, by omega⟩
  rw [mrun]
  exact h g (by omega)

/-- `stably_grpClose` with the outer group state passed explicitly. -/
lemma stably_grpClose' {s : List Char} {k : List RItem} {pos : Nat} {f0 r} {n : Nat}
    (opens : List (Nat × Nat)) (done : List (Nat × Nat × Nat))
    (h : Stably s k pos (closeGroup n pos opens done).1 (closeGroup n pos opens done).2 f0 r) :
    Stably s (.grpClose n :: k) pos opens done (f0 + 1) r :=
  stably_grpClose h

lemma stably_eol {s : List Char} {k : List RItem} {pos : Nat} {opens done f0 r}
    (hc : pos = s.length ∨ s.get? pos = some '\n') (h : Stably s k pos opens done f0 r) :
    Stably s (.eol :: k) pos opens done (f0 + 1) r := by
  intro f hf
  obtain ⟨g, rfl⟩ : ∃ g, f = g + 1 := ⟨f - 1, by omega⟩
  rw [mrun, if_pos hc]
  exact h g (by omega)

lemma stably_eol_fail {s : List Char} {k : List RItem} {pos : Nat} {opens done} {c : Char}
    (hc : s.get? pos = some c) (hne : c ≠ '\n') :
    Stably s (.eol :: k) pos opens done 1 .fail := by
  intro f hf
  obtain ⟨g, rfl⟩ : ∃ g, f = g + 1 := ⟨f - 1, by omega⟩
  rw [mrun, if_neg]
  rintro (h | h)
  · rw [h] at hc
    simp [List.get?_eq_none.mpr (Nat.le_refl _)] at hc
  · rw [hc] at h
    exact hne (by injection h)

lemma stably_alt_ok {s : List Char} {r1 r2 k : List RItem} {pos : Nat} {opens done f0}
    {e : Nat} {d : List (Nat × Nat × Nat)}
    (h : Stably s (r1 ++ k) pos opens done f0 (.ok e d)) :
    Stably s (.alt r1 r2 :: k) pos opens done (f0 + 1) (.ok e d) := by
  intro f hf
  obtain ⟨g, rfl⟩ : ∃ g, f = g + 1 := ⟨f - 1, by omega⟩
  rw [mrun, h g (by omega)]
  rfl

lemma stably_alt_fail {s : List Char} {r1 r2 k : List RItem} {pos : Nat} {opens done f1 f2 r}
    (h1 : Stably s (r1 ++ k) pos opens done f1 .fail)
    (h2 : Stably s (r2 ++ k) pos opens done f2 r) :
    Stably s (.alt r1 r2 :: k) pos opens done (max f1 f2 + 1) r := by
  intro f hf
  obtain ⟨g, rfl⟩ : ∃ g, f = g + 1 := ⟨f - 1, by omega⟩
  rw [mrun, h1 g (by omega)]
  exact h2 g (by omega)

lemma stably_starG_body {s : List Char} {rb k : List RItem} {pos : Nat} {opens done f0}
    {e : Nat} {d : List (Nat × Nat × Nat)}
    (h : Stably s (rb ++ .starG rb :: k) pos opens done f0 (.ok e d)) :
    Stably s (.starG rb :: k) pos opens done (f0 + 1) (.ok e d) := by
  intro f hf
  obtain ⟨g, rfl⟩ : ∃ g, f = g + 1 := ⟨f - 1, by omega⟩
  rw [mrun, h g (by omega)]
  rfl

lemma stably_starG_exit {s : List Char} {rb k : List RItem} {pos : Nat} {opens done f1 f2 r}
    (h1 : Stably s (rb ++ .starG rb :: k) pos opens done f1 .fail)
    (h2 : Stably s k pos opens done f2 r) :
    Stably s (.starG rb :: k) pos opens done (max f1 f2 + 1) r := by
  intro f hf
  obtain ⟨g, rfl⟩ : ∃ g, f = g + 1 := ⟨f - 1, by omega⟩
  rw [mrun, h1 g (by omega)]
  exact h2 g (by omega)

lemma stably_starL_exit {s : List Char} {rb k : List RItem} {pos : Nat} {opens done f0}
    {e : Nat} {d : List (Nat × Nat × Nat)}
    (h : Stably s k pos opens done f0 (.ok e d)) :
    Stably s (.starL rb :: k) pos opens done (f0 + 1) (.ok e d) := by
  intro f hf
  obtain ⟨g, rfl⟩ : ∃ g, f = g + 1 := ⟨f - 1, by omega⟩
  rw [mrun, h g (by omega)]
  rfl

lemma stably_starL_body {s : List Char} {rb k : List RItem} {pos : Nat} {opens done f1 f2 r}
    (h1 : Stably s k pos opens done f1 .fail)
    (h2 : Stably s (rb ++ .starL rb :: k) pos opens done f2 r) :
    Stably s (.starL rb :: k) pos opens done (max f1 f2 + 1) r := by
  intro f hf
  obtain ⟨g, rfl⟩ : ∃ g, f = g + 1 := ⟨f - 1, by omega⟩
  rw [mrun, h1 g (by omega)]
  exact h2 g (by omega)

/-! ### Position bookkeeping -/

lemma get?_of_drop {s : List Char} {pos : Nat} {c : Char} {l : List Char}
    (h : s.drop pos = c :: l) : s.get? pos = some c := by
  rw [List.get?_eq_getElem?]
  have h0 := List.getElem?_drop s pos 0
  rw [h] at h0
  simpa using h0.symm

lemma get?_none_of_drop {s : List Char} {pos : Nat} (h : s.drop pos = []) :
    s.get? pos = none := by
  rw [List.get?_eq_getElem?]
  have h0 := List.getElem?_drop s pos 0
  rw [h] at h0
  simpa using h0.symm

lemma drop_succ_of_drop {s : List Char} {pos : Nat} {c : Char} {l : List Char}
    (h : s.drop pos = c :: l) : s.drop (pos + 1) = l := by
  rw [← List.tail_drop, h]
  rfl

/-! ### Greedy class runs -/

/-- A greedy `p+` (compiled as `cls p, (cls p)*`) consumes a maximal
nonempty run of `p`-characters when the continuation succeeds stably. -/
lemma stably_clsRun (s : List Char) (p : Char → Bool) (k : List RItem) :
    ∀ (ds : List Char) (pos : Nat) (rest : List Char) (opens : List (Nat × Nat))
      (done : List (Nat × Nat × Nat)) (f0 : Nat) (e : Nat) (d : List (Nat × Nat × Nat)),
      ds ≠ [] → (∀ c ∈ ds, p c = true) →
      s.drop pos = ds ++ rest →
      (∀ c, rest.head? = some c → p c = false) →
      Stably s k (pos + ds.length) opens done f0 (.ok e d) →
      Stably s (.cls p :: .starG [.cls p] :: k) pos opens done
        (f0 + 2 * ds.length + 2) (.ok e d) := by
  intro ds
  induction ds with
  | nil => intro pos rest opens done f0 e d hne; exact absurd rfl hne
  | cons a ds ih =>
    intro pos rest opens done f0 e d _ hall hdrop hrest hk
    have ha : p a = true := hall a (List.mem_cons_self a ds)
    have hget : s.get? pos = some a := get?_of_drop (by rw [hdrop]; rfl)
    have hdrop1 : s.drop (pos + 1) = ds ++ rest :=
      drop_succ_of_drop (by rw [hdrop]; rfl)
    cases ds with
    | nil =>
      -- single character: the star's body must fail at `rest`
      have hfail : Stably s ([.cls p] ++ .starG [.cls p] :: k) (pos + 1) opens done 1 .fail := by
        simp only [List.nil_append] at hdrop1
        rcases hr : rest with _ | ⟨c, rest'⟩
        · rw [hr] at hdrop1
          exact stably_cls_eof (get?_none_of_drop hdrop1)
        · rw [hr] at hdrop1
          exact stably_cls_fail (get?_of_drop hdrop1) (hrest c (by rw [hr]; rfl))
      have hstar : Stably s (.starG [.cls p] :: k) (pos + 1) opens done
          (max 1 f0 + 1) (.ok e d) :=
        stably_starG_exit hfail (by simpa using hk)
      have := stably_cls hget ha hstar
      exact this.mono (by simp only [List.length_cons, List.length_nil]; omega)
    | cons b ds2 =>
      have hih := ih (pos + 1) rest opens done f0 e d (by simp)
        (fun c hc => hall c (List.mem_cons_of_mem a hc)) hdrop1 hrest
        (by
          have : pos + 1 + (b :: ds2).length = pos + (a :: b :: ds2).length := by
            simp; omega
          rw [this]
          exact hk)
      have hbody : Stably s ([.cls p] ++ .starG [.cls p] :: k) (pos + 1) opens done
          (f0 + 2 * (b :: ds2).length + 2) (.ok e d) := by simpa using hih
      have hstar := stably_starG_body hbody
      have := stably_cls hget ha hstar
      exact this.mono (by simp only [List.length_cons, List.length_nil]; omega)

/-! ### Whitespace runs and literal runs -/

/-- `\s*\n` fails when the characters ahead are whitespace (without a
newline) followed by a non-whitespace character. -/
lemma stably_wsnl_fail (s : List Char) (k : List RItem) :
    ∀ (w : List Char) (q : Nat) (c : Char) (rest : List Char)
      (opens : List (Nat × Nat)) (done : List (Nat × Nat × Nat)),
      s.drop q = w ++ c :: rest →
      (∀ x ∈ w, pyIsSpace x = true ∧ x ≠ '\n') →
      pyIsSpace c = false →
      Stably s (.starG [wsCls] :: .lit '\n' :: k) q opens done (2 * w.length + 3) .fail := by
  intro w
  induction w with
  | nil =>
    intro q c rest opens done hdrop _ hc
    have hget : s.get? q = some c := get?_of_drop (by simpa using hdrop)
    have hcnl : c ≠ '\n' := by
      intro h
      rw [h] at hc
      exact absurd hc (by decide)
    have hbody : Stably s ([wsCls] ++ .starG [wsCls] :: .lit '\n' :: k) q opens done 1 .fail :=
      stably_cls_fail hget hc
    have hexit : Stably s (.lit '\n' :: k) q opens done 1 .fail :=
      stably_lit_fail hget hcnl
    exact (stably_starG_exit hbody hexit).mono (by omega)
  | cons x w ih =>
    intro q c rest opens done hdrop hw hc
    have hx := hw x (List.mem_cons_self x w)
    have hget : s.get? q = some x := get?_of_drop (by rw [hdrop]; rfl)
    have hdrop1 : s.drop (q + 1) = w ++ c :: rest := drop_succ_of_drop (by rw [hdrop]; rfl)
    have hih := ih (q + 1) c rest opens done hdrop1
      (fun y hy => hw y (List.mem_cons_of_mem x hy)) hc
    have hbody : Stably s ([wsCls] ++ .starG [wsCls] :: .lit '\n' :: k) q opens done
        (2 * w.length + 3 + 1) .fail := stably_cls hget hx.1 hih
    have hexit : Stably s (.lit '\n' :: k) q opens done 1 .fail :=
      stably_lit_fail hget hx.2
    exact (stably_starG_exit hbody hexit).mono
      (by simp only [List.length_cons]; omega)

/-- `\s*\n` at a newline followed (after whitespace containing no other
newline) by a non-whitespace character: exactly the newline is
consumed. -/
lemma stably_wsnl (s : List Char) (k : List RItem) (w : List Char) (pos : Nat) (c : Char)
    (rest : List Char) (opens : List (Nat × Nat)) (done : List (Nat × Nat × Nat))
    (f0 : Nat) (e : Nat) (d : List (Nat × Nat × Nat))
    (hdrop : s.drop pos = '\n' :: (w ++ c :: rest))
    (hw : ∀ x ∈ w, pyIsSpace x = true ∧ x ≠ '\n')
    (hc : pyIsSpace c = false)
    (hk : Stably s k (pos + 1) opens done f0 (.ok e d)) :
    Stably s (.starG [wsCls] :: .lit '\n' :: k) pos opens done
      (f0 + 2 * w.length + 8) (.ok e d) := by
  have hget : s.get? pos = some '\n' := get?_of_drop hdrop
  have hdrop1 : s.drop (pos + 1) = w ++ c :: rest := drop_succ_of_drop hdrop
  have hfail := stably_wsnl_fail s k w (pos + 1) c rest opens done hdrop1 hw hc
  have hbody : Stably s ([wsCls] ++ .starG [wsCls] :: .lit '\n' :: k) pos opens done
      (2 * w.length + 3 + 1) .fail := stably_cls hget (by decide) hfail
  have hexit : Stably s (.lit '\n' :: k) pos opens done (f0 + 1) (.ok e d) :=
    stably_lit hget hk
  exact (stably_starG_exit hbody hexit).mono (by omega)

/-- A greedy `\s*` before a non-whitespace character consumes exactly
the whitespace run. -/
lemma stably_wsStar (s : List Char) (k : List RItem) :
    ∀ (w : List Char) (pos : Nat) (c : Char) (rest : List Char)
      (opens : List (Nat × Nat)) (done : List (Nat × Nat × Nat))
      (f0 : Nat) (e : Nat) (d : List (Nat × Nat × Nat)),
      s.drop pos = w ++ c :: rest →
      (∀ x ∈ w, pyIsSpace x = true) →
      pyIsSpace c = false →
      Stably s k (pos + w.length) opens done f0 (.ok e d) →
      Stably s (.starG [wsCls] :: k) pos opens done (f0 + 2 * w.length + 2) (.ok e d) := by
  intro w
  induction w with
  | nil =>
    intro pos c rest opens done f0 e d hdrop _ hc hk
    have hget : s.get? pos = some c := get?_of_drop (by simpa using hdrop)
    have hbody : Stably s ([wsCls] ++ .starG [wsCls] :: k) pos opens done 1 .fail :=
      stably_cls_fail hget hc
    exact (stably_starG_exit hbody (by simpa using hk)).mono (by omega)
  | cons x w ih =>
    intro pos c rest opens done f0 e d hdrop hw hc hk
    have hget : s.get? pos = some x := get?_of_drop (by rw [hdrop]; rfl)
    have hdrop1 : s.drop (pos + 1) = w ++ c :: rest := drop_succ_of_drop (by rw [hdrop]; rfl)
    have hk1 : Stably s k (pos + 1 + w.length) opens done f0 (.ok e d) := by
      have harith : pos + 1 + w.length = pos + (x :: w).length := by
        simp only [List.length_cons]; omega
      rw [harith]
      exact hk
    have hih := ih (pos + 1) c rest opens done f0 e d hdrop1
      (fun y hy => hw y (List.mem_cons_of_mem x hy)) hc hk1
    have hbody : Stably s ([wsCls] ++ .starG [wsCls] :: k) pos opens done
        (f0 + 2 * w.length + 2 + 1) (.ok e d) :=
      stably_cls hget (hw x (List.mem_cons_self x w)) hih
    exact (stably_starG_body hbody).mono (by simp only [List.length_cons]; omega)

/-- Consuming a run of literal items. -/
lemma stably_lits (s : List Char) (k : List RItem) :
    ∀ (cs : List Char) (pos : Nat) (rest : List Char)
      (opens : List (Nat × Nat)) (done : List (Nat × Nat × Nat)) (f0 : Nat) (r : MRes),
      s.drop pos = cs ++ rest →
      Stably s k (pos + cs.length) opens done f0 r →
      Stably s (cs.map RItem.lit ++ k) pos opens done (f0 + cs.length) r := by
  intro cs
  induction cs with
  | nil => intro pos rest opens done f0 r _ hk; simpa using hk
  | cons c cs ih =>
    intro pos rest opens done f0 r hdrop hk
    have hget : s.get? pos = some c := get?_of_drop (by rw [hdrop]; rfl)
    have hdrop1 : s.drop (pos + 1) = cs ++ rest := drop_succ_of_drop (by rw [hdrop]; rfl)
    have hk1 : Stably s k (pos + 1 + cs.length) opens done f0 r := by
      have harith : pos + 1 + cs.length = pos + (c :: cs).length := by
        simp only [List.length_cons]; omega
      rw [harith]
      exact hk
    have := stably_lit hget (ih (pos + 1) rest opens done f0 r hdrop1 hk1)
    exact this.mono (by simp only [List.length_cons]; omega)

/-! ### Timestamps -/

/-- The shape `\d\d:\d\d:\d\d,\d\d\d`. -/
def tsOK (ts : List Char) : Bool :=
  match ts with
  | [a, b, c, d, e, f, g, h, i, j, k, l] =>
    a.isDigit && b.isDigit && (c = ':') && d.isDigit && e.isDigit && (f = ':') &&
      g.isDigit && h.isDigit && (i = ',') && j.isDigit && k.isDigit && l.isDigit
  | _ => false

lemma stably_shift {s : List Char} {items : List RItem} {opens done f0 r} {p q : Nat}
    (hpq : p = q) (h : Stably s items p opens done f0 r) :
    Stably s items q opens done f0 r := hpq ▸ h

/-- Matching a timestamp consumes exactly its 12 characters, whatever
the continuation does. -/
lemma stably_ts (s : List Char) (k : List RItem) (ts : List Char) (pos : Nat)
    (rest : List Char) (opens : List (Nat × Nat)) (done : List (Nat × Nat × Nat))
    (f0 : Nat) (r : MRes)
    (hts : tsOK ts = true) (hdrop : s.drop pos = ts ++ rest)
    (hk : Stably s k (pos + 12) opens done f0 r) :
    Stably s (tsItems ++ k) pos opens done (f0 + 12) r := by
  rcases ts with _ | ⟨a, ts⟩; · simp [tsOK] at hts
  rcases ts with _ | ⟨b, ts⟩; · simp [tsOK] at hts
  rcases ts with _ | ⟨c, ts⟩; · simp [tsOK] at hts
  rcases ts with _ | ⟨d, ts⟩; · simp [tsOK] at hts
  rcases ts with _ | ⟨e, ts⟩; · simp [tsOK] at hts
  rcases ts with _ | ⟨f, ts⟩; · simp [tsOK] at hts
  rcases ts with _ | ⟨g, ts⟩; · simp [tsOK] at hts
  rcases ts with _ | ⟨h, ts⟩; · simp [tsOK] at hts
  rcases ts with _ | ⟨i, ts⟩; · simp [tsOK] at hts
  rcases ts with _ | ⟨j, ts⟩; · simp [tsOK] at hts
  rcases ts with _ | ⟨kk, ts⟩; · simp [tsOK] at hts
  rcases ts with _ | ⟨l, ts⟩; · simp [tsOK] at hts
  rcases ts with _ | ⟨m, ts⟩
  swap
  · exact absurd hts (by simp [tsOK])
  unfold tsOK at hts
  simp only [Bool.and_eq_true, decide_eq_true_eq] at hts
  obtain ⟨⟨⟨⟨⟨⟨⟨⟨⟨⟨⟨h1, h2⟩, h3⟩, h4⟩, h5⟩, h6⟩, h7⟩, h8⟩, h9⟩, h10⟩, h11⟩, h12⟩ := hts
  subst h3; subst h6; subst h9
  have d0 : s.drop pos = a :: (b :: ':' :: d :: e :: ':' :: g :: h :: ',' :: j :: kk :: l :: rest) := by
    rw [hdrop]; rfl
  have d1 := drop_succ_of_drop d0
  have d2 := drop_succ_of_drop d1
  have d3 := drop_succ_of_drop d2
  have d4 := drop_succ_of_drop d3
  have d5 := drop_succ_of_drop d4
  have d6 := drop_succ_of_drop d5
  have d7 := drop_succ_of_drop d6
  have d8 := drop_succ_of_drop d7
  have d9 := drop_succ_of_drop d8
  have d10 := drop_succ_of_drop d9
  have d11 := drop_succ_of_drop d10
  have hk12 : Stably s k (pos + 1 + 1 + 1 + 1 + 1 + 1 + 1 + 1 + 1 + 1 + 1 + 1)
      opens done f0 r := stably_shift (by omega) hk
  show Stably s (digitCls :: digitCls :: .lit ':' :: digitCls :: digitCls :: .lit ':'
      :: digitCls :: digitCls :: .lit ',' :: digitCls :: digitCls :: digitCls :: k)
      pos opens done (f0 + 12) r
  exact (stably_cls (get?_of_drop d0) h1
    (stably_cls (get?_of_drop d1) h2
      (stably_lit (get?_of_drop d2)
        (stably_cls (get?_of_drop d3) h4
          (stably_cls (get?_of_drop d4) h5
            (stably_lit (get?_of_drop d5)
              (stably_cls (get?_of_drop d6) h7
                (stably_cls (get?_of_drop d7) h8
                  (stably_lit (get?_of_drop d8)
                    (stably_cls (get?_of_drop d9) h10
                      (stably_cls (get?_of_drop d10) h11
                        (stably_cls (get?_of_drop d11) h12 hk12)))))))))))).mono (by omega)

/-! ### The end of the text group -/

/-- The items that follow the lazy line repetition: close group 4, then
`(?:\n\s*\n|$)`. -/
def termItems : List RItem :=
  [.grpClose 4, .alt [.lit '\n', .starG [wsCls], .lit '\n'] [.eol]]

lemma length_of_drop {s : List Char} {pos : Nat} {l : List Char} (h : s.drop pos = l)
    (hne : l ≠ []) : s.length = pos + l.length := by
  have hlen := List.length_drop pos s
  rw [h] at hlen
  have : 1 ≤ l.length := by
    cases l with
    | nil => exact absurd rfl hne
    | cons a t => simp
  omega

/-- In the middle of the text block (next character exists and is not a
newline) the stop attempt fails. -/
lemma stably_stop_fail (s : List Char) (q : Nat) (c : Char) (p0 : Nat)
    (done : List (Nat × Nat × Nat))
    (hget : s.get? q = some c) (hcnl : c ≠ '\n') :
    Stably s termItems q [(4, p0)] done 4 .fail := by
  have h1 : Stably s ([.lit '\n', .starG [wsCls], .lit '\n'] ++ [])
      q ([] : List (Nat × Nat)) ((4, p0, q) :: done) 1 .fail := stably_lit_fail hget hcnl
  have h2 : Stably s ([.eol] ++ []) q ([] : List (Nat × Nat)) ((4, p0, q) :: done) 1 .fail :=
    stably_eol_fail hget hcnl
  have halt := stably_alt_fail h1 h2
  have := stably_grpClose (n := 4)
    (show Stably s [RItem.alt [.lit '\n', .starG [wsCls], .lit '\n'] [.eol]] q
        (closeGroup 4 q [(4, p0)] done).1 (closeGroup 4 q [(4, p0)] done).2
        (max 1 1 + 1) .fail from halt)
  exact this.mono (by omega)

/-- Stop at the end of the input: group 4 closes here and the `$`
alternative succeeds. -/
lemma stably_stop_eof (s : List Char) (q : Nat) (p0 : Nat) (done : List (Nat × Nat × Nat))
    (hq : q = s.length) :
    Stably s termItems q [(4, p0)] done 8 (.ok q ((4, p0, q) :: done)) := by
  have hget : s.get? q = none := by
    rw [hq]
    exact List.get?_eq_none.mpr (Nat.le_refl _)
  have h1 : Stably s ([.lit '\n', .starG [wsCls], .lit '\n'] ++ [])
      q ([] : List (Nat × Nat)) ((4, p0, q) :: done) 1 .fail := stably_lit_eof hget
  have h2 : Stably s ([.eol] ++ []) q ([] : List (Nat × Nat)) ((4, p0, q) :: done)
      (1 + 1) (.ok q ((4, p0, q) :: done)) :=
    stably_eol (Or.inl hq) (stably_nil s q [] ((4, p0, q) :: done))
  have halt := stably_alt_fail h1 h2
  have := stably_grpClose (n := 4)
    (show Stably s [RItem.alt [.lit '\n', .starG [wsCls], .lit '\n'] [.eol]] q
        (closeGroup 4 q [(4, p0)] done).1 (closeGroup 4 q [(4, p0)] done).2
        (max 1 (1 + 1) + 1) (.ok q ((4, p0, q) :: done)) from halt)
  exact this.mono (by omega)

/-- Stop at the second separator newline: the `\n\s*\n` alternative
fails (the next block starts with a non-whitespace character) and `$`
succeeds without consuming. -/
lemma stably_stop_sep (s : List Char) (q : Nat) (c : Char) (rest2 : List Char) (p0 : Nat)
    (done : List (Nat × Nat × Nat))
    (hdrop : s.drop q = '\n' :: c :: rest2) (hc : pyIsSpace c = false) :
    Stably s termItems q [(4, p0)] done 8 (.ok q ((4, p0, q) :: done)) := by
  have hget : s.get? q = some '\n' := get?_of_drop hdrop
  have hdrop1 : s.drop (q + 1) = c :: rest2 := drop_succ_of_drop hdrop
  have hget1 : s.get? (q + 1) = some c := get?_of_drop hdrop1
  have hcnl : c ≠ '\n' := by
    intro h
    rw [h] at hc
    exact absurd hc (by decide)
  -- the first alternative: consume the newline, then `\s*` exits at `c`
  -- and the final `\n` fails
  have hbody1 : Stably s ([wsCls] ++ .starG [wsCls] :: .lit '\n' :: [])
      (q + 1) ([] : List (Nat × Nat)) ((4, p0, q) :: done) 1 .fail :=
    stably_cls_fail hget1 hc
  have hlit : Stably s (.lit '\n' :: []) (q + 1) ([] : List (Nat × Nat))
      ((4, p0, q) :: done) 1 .fail := stably_lit_fail hget1 hcnl
  have hstar : Stably s (.starG [wsCls] :: .lit '\n' :: []) (q + 1)
      ([] : List (Nat × Nat)) ((4, p0, q) :: done) (max 1 1 + 1) .fail :=
    stably_starG_exit hbody1 hlit
  have h1 : Stably s ([.lit '\n', .starG [wsCls], .lit '\n'] ++ [])
      q ([] : List (Nat × Nat)) ((4, p0, q) :: done) (max 1 1 + 1 + 1) .fail :=
    stably_lit hget hstar
  have h2 : Stably s ([.eol] ++ []) q ([] : List (Nat × Nat)) ((4, p0, q) :: done)
      (1 + 1) (.ok q ((4, p0, q) :: done)) :=
    stably_eol (Or.inr hget) (stably_nil s q [] ((4, p0, q) :: done))
  have halt := stably_alt_fail h1 h2
  have := stably_grpClose (n := 4)
    (show Stably s [RItem.alt [.lit '\n', .starG [wsCls], .lit '\n'] [.eol]] q
        (closeGroup 4 q [(4, p0)] done).1 (closeGroup 4 q [(4, p0)] done).2
        (max (max 1 1 + 1 + 1) (1 + 1) + 1) (.ok q ((4, p0, q) :: done)) from halt)
  exact this.mono (by omega)

lemma drop_append_of_drop {s : List Char} {pos : Nat} {X Y : List Char}
    (h : s.drop pos = X ++ Y) : s.drop (pos + X.length) = Y := by
  rw [← List.drop_drop, h, List.drop_left]

/-! ### The text region -/

/-- The lazy `(?:.+\n?)+?` of group 4 on the serialized text lines: each
line is consumed fully (with its newline), the stop attempt fails at
every line start, and the stop after the last line's newline succeeds,
closing group 4 there. -/
lemma stably_text (s : List Char) :
    ∀ (lines : List (List Char)) (pos : Nat) (tail : List Char) (p0 : Nat)
      (done : List (Nat × Nat × Nat)),
      lines ≠ [] →
      (∀ l ∈ lines, l ≠ [] ∧ '\n' ∉ l) →
      s.drop pos = joinNl lines ++ '\n' :: tail →
      (tail = [] ∨ ∃ c rest2, tail = '\n' :: c :: rest2 ∧ pyIsSpace c = false) →
      Stably s (lineRep ++ .starL lineRep :: termItems) pos [(4, p0)] done
        (8 * (joinNl lines).length + 30)
        (.ok (pos + (joinNl lines).length + 1)
          ((4, p0, pos + (joinNl lines).length + 1) :: done)) := by
  intro lines
  induction lines with
  | nil => intro pos tail p0 done hne; exact absurd rfl hne
  | cons l lines ih =>
    intro pos tail p0 done _ hl hdrop htail
    have hlne : l ≠ [] := (hl l (List.mem_cons_self l lines)).1
    have hlnl : '\n' ∉ l := (hl l (List.mem_cons_self l lines)).2
    have hpdot : ∀ c ∈ l, (fun c => decide (c ≠ '\n')) c = true := by
      intro c hc
      simp only [decide_eq_true_eq]
      intro hcn
      exact hlnl (hcn ▸ hc)
    cases lines with
    | nil =>
      -- single line: after `l` and its newline, the stop succeeds
      have hJ : joinNl [l] = l := rfl
      rw [hJ] at hdrop
      have hdropl : s.drop (pos + l.length) = '\n' :: tail := by
        have := drop_append_of_drop (X := l) (Y := '\n' :: tail) hdrop
        exact this
      have hgetnl : s.get? (pos + l.length) = some '\n' := get?_of_drop hdropl
      have hdropq : s.drop (pos + l.length + 1) = tail := drop_succ_of_drop hdropl
      have hstop : Stably s termItems (pos + l.length + 1) [(4, p0)] done 8
          (.ok (pos + l.length + 1) ((4, p0, pos + l.length + 1) :: done)) := by
        rcases htail with rfl | ⟨c, rest2, rfl, hc⟩
        · exact stably_stop_eof s _ p0 done
            (by
              have := length_of_drop hdropl (by simp)
              simp only [List.length_cons, List.length_nil] at this
              omega)
        · exact stably_stop_sep s _ c rest2 p0 done hdropq hc
      have hstarL : Stably s (.starL lineRep :: termItems) (pos + l.length + 1)
          [(4, p0)] done (8 + 1)
          (.ok (pos + l.length + 1) ((4, p0, pos + l.length + 1) :: done)) :=
        stably_starL_exit hstop
      have hlit : Stably s (.lit '\n' :: .starL lineRep :: termItems) (pos + l.length)
          [(4, p0)] done (8 + 1 + 1)
          (.ok (pos + l.length + 1) ((4, p0, pos + l.length + 1) :: done)) :=
        stably_lit hgetnl hstarL
      have halt : Stably s (.alt [.lit '\n'] [] :: .starL lineRep :: termItems)
          (pos + l.length) [(4, p0)] done (8 + 1 + 1 + 1)
          (.ok (pos + l.length + 1) ((4, p0, pos + l.length + 1) :: done)) :=
        stably_alt_ok hlit
      have hrun := stably_clsRun s (fun c => decide (c ≠ '\n'))
        (.alt [.lit '\n'] [] :: .starL lineRep :: termItems) l pos ('\n' :: tail)
        [(4, p0)] done (8 + 1 + 1 + 1) (pos + l.length + 1)
        ((4, p0, pos + l.length + 1) :: done) hlne hpdot hdrop
        (by intro c hc; injection hc with hc; rw [← hc]; simp)
        halt
      exact hrun.mono (by
        have hJl : joinNl [l] = l := rfl
        rw [hJl]
        omega)
    | cons l2 lines2 =>
      have hl2 := hl l2 (List.mem_cons_of_mem l (List.mem_cons_self l2 lines2))
      have hJ : joinNl (l :: l2 :: lines2) = l ++ '\n' :: joinNl (l2 :: lines2) := rfl
      rw [hJ] at hdrop
      have hdrop' : s.drop pos = l ++ '\n' :: (joinNl (l2 :: lines2) ++ '\n' :: tail) := by
        rw [hdrop]
        simp
      have hdropl : s.drop (pos + l.length) = '\n' :: (joinNl (l2 :: lines2) ++ '\n' :: tail) :=
        drop_append_of_drop (X := l) hdrop'
      have hgetnl : s.get? (pos + l.length) = some '\n' := get?_of_drop hdropl
      have hdropq : s.drop (pos + l.length + 1) = joinNl (l2 :: lines2) ++ '\n' :: tail :=
        drop_succ_of_drop hdropl
      -- head of l2 blocks the stop attempt
      obtain ⟨c0, l2t, hl2eq⟩ : ∃ c0 l2t, l2 = c0 :: l2t := by
        cases hx : l2 with
        | nil => exact absurd hx hl2.1
        | cons a t => exact ⟨a, t, rfl⟩
      obtain ⟨Z, hZ⟩ : ∃ Z, joinNl (l2 :: lines2) = c0 :: Z := by
        cases lines2 with
        | nil => exact ⟨l2t, by simp [joinNl, hl2eq]⟩
        | cons a t => exact ⟨l2t ++ '\n' :: joinNl (a :: t), by simp [joinNl, hl2eq]⟩
      have hgetc0 : s.get? (pos + l.length + 1) = some c0 :=
        get?_of_drop (l := Z ++ '\n' :: tail)
          (by rw [hdropq, hZ]; rfl)
      have hc0nl : c0 ≠ '\n' := by
        intro h
        exact hl2.2 (by rw [hl2eq, h]; exact List.mem_cons_self _ _)
      have hstopfail : Stably s termItems (pos + l.length + 1) [(4, p0)] done 4 .fail :=
        stably_stop_fail s _ c0 p0 done hgetc0 hc0nl
      have hih := ih (pos + l.length + 1) tail p0 done (by simp)
        (fun x hx => hl x (List.mem_cons_of_mem l hx)) hdropq htail
      have hbody : Stably s (lineRep ++ .starL lineRep :: termItems) (pos + l.length + 1)
          [(4, p0)] done (8 * (joinNl (l2 :: lines2)).length + 30)
          (.ok (pos + l.length + 1 + (joinNl (l2 :: lines2)).length + 1)
            ((4, p0, pos + l.length + 1 + (joinNl (l2 :: lines2)).length + 1) :: done)) := hih
      have harith : pos + l.length + 1 + (joinNl (l2 :: lines2)).length + 1
          = pos + (joinNl (l :: l2 :: lines2)).length + 1 := by
        rw [hJ]
        simp only [List.length_append, List.length_cons]
        omega
      rw [harith] at hbody
      have hstarL : Stably s (.starL lineRep :: termItems) (pos + l.length + 1)
          [(4, p0)] done (max 4 (8 * (joinNl (l2 :: lines2)).length + 30) + 1)
          (.ok (pos + (joinNl (l :: l2 :: lines2)).length + 1)
            ((4, p0, pos + (joinNl (l :: l2 :: lines2)).length + 1) :: done)) :=
        stably_starL_body hstopfail hbody
      have hlit := stably_lit hgetnl hstarL
      have halt : Stably s (.alt [.lit '\n'] [] :: .starL lineRep :: termItems)
          (pos + l.length) [(4, p0)] done
          (max 4 (8 * (joinNl (l2 :: lines2)).length + 30) + 1 + 1 + 1)
          (.ok (pos + (joinNl (l :: l2 :: lines2)).length + 1)
            ((4, p0, pos + (joinNl (l :: l2 :: lines2)).length + 1) :: done)) :=
        stably_alt_ok hlit
      have hrun := stably_clsRun s (fun c => decide (c ≠ '\n'))
        (.alt [.lit '\n'] [] :: .starL lineRep :: termItems) l pos
        ('\n' :: (joinNl (l2 :: lines2) ++ '\n' :: tail))
        [(4, p0)] done _ _ _ hlne hpdot hdrop'
        (by intro c hc; injection hc with hc; rw [← hc]; simp)
        halt
      refine hrun.mono ?_
      rw [hJ]
      simp only [List.length_append, List.length_cons]
      have hmax : max 4 (8 * (joinNl (l2 :: lines2)).length + 30)
          = 8 * (joinNl (l2 :: lines2)).length + 30 := by omega
      rw [hmax]
      omega

/-! ### Helpers for the whole-block walk -/

/-- A line with a non-whitespace character splits as whitespace, first
non-whitespace character, remainder. -/
lemma nonblank_split (l : List Char) (h : ∃ c ∈ l, pyIsSpace c = false) :
    ∃ w c r, l = w ++ c :: r ∧ (∀ x ∈ w, pyIsSpace x = true ∧ x ∈ l)
      ∧ pyIsSpace c = false := by
  rcases hd : l.dropWhile pyIsSpace with _ | ⟨c, r⟩
  · obtain ⟨c, hc, hcf⟩ := h
    have := List.dropWhile_eq_nil_iff.mp hd c hc
    rw [this] at hcf
    cases hcf
  · refine ⟨l.takeWhile pyIsSpace, c, r, ?_, ?_, ?_⟩
    · rw [← hd, List.takeWhile_append_dropWhile]
    · intro x hx
      exact ⟨List.mem_takeWhile_imp hx, (List.takeWhile_sublist pyIsSpace).subset hx⟩
    · have := List.head?_dropWhile_not pyIsSpace l
      rw [hd] at this
      exact this

lemma joinNl_cons_decomp (l : List Char) (ls : List (List Char)) :
    ∃ T, joinNl (l :: ls) = l ++ T := by
  cases ls with
  | nil => exact ⟨[], by simp [joinNl]⟩
  | cons a t => exact ⟨'\n' :: joinNl (a :: t), rfl⟩

lemma tsOK_head {ts : List Char} (h : tsOK ts = true) :
    ts.length = 12 ∧ ∃ c r, ts = c :: r ∧ c.isDigit = true := by
  rcases ts with _ | ⟨a, ts⟩; · simp [tsOK] at h
  rcases ts with _ | ⟨b, ts⟩; · simp [tsOK] at h
  rcases ts with _ | ⟨c, ts⟩; · simp [tsOK] at h
  rcases ts with _ | ⟨d, ts⟩; · simp [tsOK] at h
  rcases ts with _ | ⟨e, ts⟩; · simp [tsOK] at h
  rcases ts with _ | ⟨f, ts⟩; · simp [tsOK] at h
  rcases ts with _ | ⟨g, ts⟩; · simp [tsOK] at h
  rcases ts with _ | ⟨hh, ts⟩; · simp [tsOK] at h
  rcases ts with _ | ⟨i, ts⟩; · simp [tsOK] at h
  rcases ts with _ | ⟨j, ts⟩; · simp [tsOK] at h
  rcases ts with _ | ⟨kk, ts⟩; · simp [tsOK] at h
  rcases ts with _ | ⟨l, ts⟩; · simp [tsOK] at h
  rcases ts with _ | ⟨m, ts⟩
  swap
  · simp [tsOK] at h
  unfold tsOK at h
  simp only [Bool.and_eq_true, decide_eq_true_eq] at h
  exact ⟨rfl, a, _, rfl, h.1.1.1.1.1.1.1.1.1.1.1⟩

/-- The well-formedness of a single entry assumed by the round trip. -/
def WFentry (e : SubtitleEntry) : Prop :=
  tsOK e.start_time.data = true ∧ tsOK e.end_time.data = true ∧
    e.text_lines ≠ [] ∧
    ∀ line ∈ e.text_lines, '\n' ∉ line.data ∧ ∃ c ∈ line.data, pyIsSpace c = false

/-- The characters of a block without its sign: the digits of `|number|`
followed by newline, timestamps, arrow, newline and the joined lines. -/
def coreChars (e : SubtitleEntry) : List Char :=
  (Nat.repr e.number.natAbs).data
    ++ '\n' :: (e.start_time.data
      ++ ' ' :: '-' :: '-' :: '>' :: ' ' :: (e.end_time.data
        ++ '\n' :: joinNl (e.text_lines.map String.data)))

lemma blockChars_eq (e : SubtitleEntry) :
    blockChars e = (if e.number < 0 then ['-'] else []) ++ coreChars e := by
  unfold blockChars coreChars
  rw [intRepr_data]
  simp [List.append_assoc]

/-- The closed groups of a successful block match starting at `pos`
(number digits starting at `pos`, i.e. after any minus sign). -/
def blockDone (e : SubtitleEntry) (pos : Nat) : List (Nat × Nat × Nat) :=
  let nd := (Nat.repr e.number.natAbs).data.length
  [(4, pos + nd + 31, pos + (coreChars e).length + 1),
   (3, pos + nd + 18, pos + nd + 30),
   (2, pos + nd + 1, pos + nd + 13),
   (1, pos, pos + nd)]

/-- A whole block matches at the start of its digits: the attempt
succeeds, ends one character past the joined text lines (consuming the
newline after the last line), and captures the four groups. -/
lemma stably_block (s : List Char) (e : SubtitleEntry) (pos : Nat) (tail : List Char)
    (hWF : WFentry e)
    (hdrop : s.drop pos = coreChars e ++ '\n' :: tail)
    (htail : tail = [] ∨ ∃ c rest2, tail = '\n' :: c :: rest2 ∧ pyIsSpace c = false) :
    Stably s blockItems pos [] [] (30 * (coreChars e).length + 200)
      (.ok (pos + (coreChars e).length + 1) (blockDone e pos)) := by
  obtain ⟨hts1, hts2, htl, hlines⟩ := hWF
  obtain ⟨hlen1, c1h, r1h, hT1eq, hT1d⟩ := tsOK_head hts1
  obtain ⟨hlen2, c2h, r2h, hT2eq, hT2d⟩ := tsOK_head hts2
  have hcore : (coreChars e).length
      = (Nat.repr e.number.natAbs).data.length + 31
          + (joinNl (e.text_lines.map String.data)).length := by
    unfold coreChars
    simp only [List.length_append, List.length_cons, hlen1, hlen2]
    omega
  have hdrop0 : s.drop pos
      = (Nat.repr e.number.natAbs).data ++ ('\n' :: (e.start_time.data
          ++ ' ' :: '-' :: '-' :: '>' :: ' ' :: (e.end_time.data
            ++ '\n' :: (joinNl (e.text_lines.map String.data) ++ '\n' :: tail)))) := by
    rw [hdrop]
    simp [coreChars, List.append_assoc]
  have D1 := drop_append_of_drop hdrop0
  have D2 := drop_succ_of_drop D1
  have D3 : s.drop (pos + (Nat.repr e.number.natAbs).data.length + 13)
      = ' ' :: ('-' :: '-' :: '>' :: ' ' :: (e.end_time.data
          ++ '\n' :: (joinNl (e.text_lines.map String.data) ++ '\n' :: tail))) := by
    have h := drop_append_of_drop D2
    rw [hlen1] at h
    rwa [show pos + (Nat.repr e.number.natAbs).data.length + 1 + 12
        = pos + (Nat.repr e.number.natAbs).data.length + 13 from by omega] at h
  have D4 := drop_succ_of_drop D3
  have D5 := drop_succ_of_drop D4
  have D6 := drop_succ_of_drop D5
  have D7 := drop_succ_of_drop D6
  have D8 : s.drop (pos + (Nat.repr e.number.natAbs).data.length + 18)
      = e.end_time.data
          ++ '\n' :: (joinNl (e.text_lines.map String.data) ++ '\n' :: tail) := by
    have h := drop_succ_of_drop D7
    rwa [show pos + (Nat.repr e.number.natAbs).data.length + 13 + 1 + 1 + 1 + 1 + 1
        = pos + (Nat.repr e.number.natAbs).data.length + 18 from by omega] at h
  have D9 : s.drop (pos + (Nat.repr e.number.natAbs).data.length + 30)
      = '\n' :: (joinNl (e.text_lines.map String.data) ++ '\n' :: tail) := by
    have h := drop_append_of_drop D8
    rw [hlen2] at h
    rwa [show pos + (Nat.repr e.number.natAbs).data.length + 18 + 12
        = pos + (Nat.repr e.number.natAbs).data.length + 30 from by omega] at h
  have D10 : s.drop (pos + (Nat.repr e.number.natAbs).data.length + 31)
      = joinNl (e.text_lines.map String.data) ++ '\n' :: tail := by
    have h := drop_succ_of_drop D9
    rwa [show pos + (Nat.repr e.number.natAbs).data.length + 30 + 1
        = pos + (Nat.repr e.number.natAbs).data.length + 31 from by omega] at h
  -- text lines and the first line's leading whitespace
  obtain ⟨line1, tlrest, htleq⟩ : ∃ a t, e.text_lines = a :: t := by
    cases hx : e.text_lines with
    | nil => exact absurd hx htl
    | cons a t => exact ⟨a, t, rfl⟩
  have hLNeq : e.text_lines.map String.data = line1.data :: tlrest.map String.data := by
    rw [htleq]; rfl
  have hLNprops : ∀ l ∈ e.text_lines.map String.data, l ≠ [] ∧ '\n' ∉ l := by
    intro l hl
    obtain ⟨x, hx, rfl⟩ := List.mem_map.mp hl
    obtain ⟨hnl, c, hc, _⟩ := hlines x hx
    refine ⟨fun hh => ?_, hnl⟩
    rw [hh] at hc
    simp at hc
  have hline1 := hlines line1 (by rw [htleq]; exact List.mem_cons_self _ _)
  obtain ⟨w1, cc1, r1, hl1eq, hw1, hcc1⟩ := nonblank_split line1.data hline1.2
  have hw1props : ∀ x ∈ w1, pyIsSpace x = true ∧ x ≠ '\n' := by
    intro x hx
    refine ⟨(hw1 x hx).1, fun hh => hline1.1 ?_⟩
    rw [← hh]
    exact (hw1 x hx).2
  obtain ⟨TT, hTT⟩ := joinNl_cons_decomp line1.data (tlrest.map String.data)
  have hJNdec : joinNl (e.text_lines.map String.data) ++ '\n' :: tail
      = w1 ++ cc1 :: (r1 ++ TT ++ '\n' :: tail) := by
    rw [hLNeq, hTT, hl1eq]
    simp [List.append_assoc]
  have hw1J : w1.length + 1 ≤ (joinNl (e.text_lines.map String.data)).length := by
    have : (joinNl (e.text_lines.map String.data)).length
        = line1.data.length + TT.length := by
      rw [hLNeq, hTT]
      simp
    rw [this, hl1eq]
    simp only [List.length_append, List.length_cons]
    omega
  -- abbreviations for the capture lists
  have B9 := stably_text s (e.text_lines.map String.data)
    (pos + (Nat.repr e.number.natAbs).data.length + 31) tail
    (pos + (Nat.repr e.number.natAbs).data.length + 31)
    [(3, pos + (Nat.repr e.number.natAbs).data.length + 18,
        pos + (Nat.repr e.number.natAbs).data.length + 30),
     (2, pos + (Nat.repr e.number.natAbs).data.length + 1,
        pos + (Nat.repr e.number.natAbs).data.length + 13),
     (1, pos, pos + (Nat.repr e.number.natAbs).data.length)]
    (by rw [hLNeq]; simp) hLNprops D10 htail
  have B8 := stably_grpOpen (n := 4) B9
  have B7 := stably_wsnl s (.grpOpen 4 :: (lineRep ++ .starL lineRep :: termItems)) w1
    (pos + (Nat.repr e.number.natAbs).data.length + 30) cc1
    (r1 ++ TT ++ '\n' :: tail) []
    [(3, pos + (Nat.repr e.number.natAbs).data.length + 18,
        pos + (Nat.repr e.number.natAbs).data.length + 30),
     (2, pos + (Nat.repr e.number.natAbs).data.length + 1,
        pos + (Nat.repr e.number.natAbs).data.length + 13),
     (1, pos, pos + (Nat.repr e.number.natAbs).data.length)]
    _ _ _
    (by rw [D9, hJNdec])
    hw1props hcc1
    (stably_shift (by omega) B8)
  have B6 := stably_grpClose' (n := 3)
    [(3, pos + (Nat.repr e.number.natAbs).data.length + 18)]
    [(2, pos + (Nat.repr e.number.natAbs).data.length + 1,
        pos + (Nat.repr e.number.natAbs).data.length + 13),
      (1, pos, pos + (Nat.repr e.number.natAbs).data.length)]
    B7
  have B5 := stably_ts s _ e.end_time.data
    (pos + (Nat.repr e.number.natAbs).data.length + 18)
    ('\n' :: (joinNl (e.text_lines.map String.data) ++ '\n' :: tail))
    [(3, pos + (Nat.repr e.number.natAbs).data.length + 18)]
    [(2, pos + (Nat.repr e.number.natAbs).data.length + 1,
        pos + (Nat.repr e.number.natAbs).data.length + 13),
      (1, pos, pos + (Nat.repr e.number.natAbs).data.length)]
    _ _ hts2 D8 (stably_shift (by omega) B6)
  have B4 := stably_grpOpen (n := 3) B5
  have B3c := stably_wsStar s _ [' ']
    (pos + (Nat.repr e.number.natAbs).data.length + 17) c2h
    (r2h ++ '\n' :: (joinNl (e.text_lines.map String.data) ++ '\n' :: tail))
    [] [(2, pos + (Nat.repr e.number.natAbs).data.length + 1,
        pos + (Nat.repr e.number.natAbs).data.length + 13),
      (1, pos, pos + (Nat.repr e.number.natAbs).data.length)]
    _ _ _
    (by
      have h := D7
      rw [show pos + (Nat.repr e.number.natAbs).data.length + 13 + 1 + 1 + 1 + 1
          = pos + (Nat.repr e.number.natAbs).data.length + 17 from by omega] at h
      rw [h, hT2eq]
      rfl)
    (by intro x hx; simp at hx; rw [hx]; rfl)
    (isDigit_not_space hT2d)
    (stably_shift (by simp) B4)
  have B3b := stably_lits s _ ['-', '-', '>']
    (pos + (Nat.repr e.number.natAbs).data.length + 14)
    (' ' :: (e.end_time.data
      ++ '\n' :: (joinNl (e.text_lines.map String.data) ++ '\n' :: tail)))
    [] [(2, pos + (Nat.repr e.number.natAbs).data.length + 1,
        pos + (Nat.repr e.number.natAbs).data.length + 13),
      (1, pos, pos + (Nat.repr e.number.natAbs).data.length)]
    _ _
    (by
      have h := D4
      rwa [show pos + (Nat.repr e.number.natAbs).data.length + 13 + 1
          = pos + (Nat.repr e.number.natAbs).data.length + 14 from by omega] at h)
    (stably_shift (by simp) B3c)
  have B3a := stably_wsStar s _ [' ']
    (pos + (Nat.repr e.number.natAbs).data.length + 13) '-'
    ('-' :: '>' :: ' ' :: (e.end_time.data
      ++ '\n' :: (joinNl (e.text_lines.map String.data) ++ '\n' :: tail)))
    [] [(2, pos + (Nat.repr e.number.natAbs).data.length + 1,
        pos + (Nat.repr e.number.natAbs).data.length + 13),
      (1, pos, pos + (Nat.repr e.number.natAbs).data.length)]
    _ _ _
    (by rw [D3]; rfl)
    (by intro x hx; simp at hx; rw [hx]; rfl)
    (by rfl)
    (stably_shift (by simp) B3b)
  have B2 := stably_grpClose' (n := 2)
    [(2, pos + (Nat.repr e.number.natAbs).data.length + 1)]
    [(1, pos, pos + (Nat.repr e.number.natAbs).data.length)]
    B3a
  have B1 := stably_ts s _ e.start_time.data
    (pos + (Nat.repr e.number.natAbs).data.length + 1)
    (' ' :: '-' :: '-' :: '>' :: ' ' :: (e.end_time.data
      ++ '\n' :: (joinNl (e.text_lines.map String.data) ++ '\n' :: tail)))
    [(2, pos + (Nat.repr e.number.natAbs).data.length + 1)]
    [(1, pos, pos + (Nat.repr e.number.natAbs).data.length)]
    _ _ hts1 D2 (stably_shift (by omega) B2)
  have B0 := stably_grpOpen (n := 2) B1
  have A2 := stably_wsnl s (.grpOpen 2 :: (tsItems ++ (.grpClose 2 :: .starG [wsCls]
      :: .lit '-' :: .lit '-' :: .lit '>' :: .starG [wsCls] :: .grpOpen 3
      :: (tsItems ++ (.grpClose 3 :: .starG [wsCls] :: .lit '\n' :: .grpOpen 4
        :: (lineRep ++ .starL lineRep :: termItems)))))) []
    (pos + (Nat.repr e.number.natAbs).data.length) c1h
    (r1h ++ ' ' :: '-' :: '-' :: '>' :: ' ' :: (e.end_time.data
      ++ '\n' :: (joinNl (e.text_lines.map String.data) ++ '\n' :: tail)))
    [] [(1, pos, pos + (Nat.repr e.number.natAbs).data.length)]
    _ _ _
    (by rw [D1, hT1eq]; rfl)
    (by intro x hx; cases hx)
    (isDigit_not_space hT1d)
    (stably_shift (by omega) B0)
  have A1 := stably_grpClose' (n := 1) [(1, pos)] [] A2
  have A0 := stably_clsRun s Char.isDigit _ (Nat.repr e.number.natAbs).data pos
    ('\n' :: (e.start_time.data ++ ' ' :: '-' :: '-' :: '>' :: ' '
      :: (e.end_time.data
        ++ '\n' :: (joinNl (e.text_lines.map String.data) ++ '\n' :: tail))))
    [(1, pos)] [] _ _ _
    (natRepr_ne_nil _) (natRepr_digits _) hdrop0
    (by intro c hc; injection hc with hc; rw [← hc]; rfl)
    A1
  have Afin := stably_grpOpen (n := 1) A0
  have hend : pos + (Nat.repr e.number.natAbs).data.length + 31
      + (joinNl (e.text_lines.map String.data)).length + 1
      = pos + (coreChars e).length + 1 := by
    rw [hcore]; omega
  rw [hend] at Afin
  refine Stably.mono ?_ (show Stably s blockItems pos [] [] _
    (.ok (pos + (coreChars e).length + 1) (blockDone e pos)) from Afin)
  rw [hcore]
  have hndlen : 1 ≤ (Nat.repr e.number.natAbs).data.length := by
    cases hx : (Nat.repr e.number.natAbs).data with
    | nil => exact absurd hx (natRepr_ne_nil _)
    | cons a t => simp
  simp only [List.length_cons, List.length_nil]
  omega

/-! ### The scan loop of `finditer` on a serialized entry list -/

/-- At a position holding no digit (or at the end of the input) the block
pattern fails at once: its first two items are `grpOpen 1` and `\d`. -/
lemma stably_block_fail (s : List Char) (pos : Nat)
    (h : ∀ c, s.get? pos = some c → c.isDigit = false) :
    Stably s blockItems pos [] [] 2 .fail := by
  cases hx : s.get? pos with
  | none => exact stably_grpOpen (n := 1) (stably_cls_eof hx)
  | some c => exact stably_grpOpen (n := 1) (stably_cls_fail hx (h c hx))

/-- Past the end of the input the scan loop yields nothing. -/
lemma finditerLoop_nil (s : List Char) : ∀ (fuel pos : Nat), s.length ≤ pos →
    finditerLoop fuel s pos = [] := by
  intro fuel
  induction fuel with
  | zero => intro pos _; rfl
  | succ fuel ih =>
    intro pos hpos
    rw [finditerLoop]
    by_cases hle : pos ≤ s.length
    · rw [if_pos hle]
      have hdrop : s.drop pos = [] := List.drop_eq_nil_of_le hpos
      have hfa : mrun (mrunFuel s) s blockItems pos [] [] = .fail :=
        stably_block_fail s pos
          (fun c hc => by rw [get?_none_of_drop hdrop] at hc; cases hc)
          (mrunFuel s) (by unfold mrunFuel; omega)
      rw [hfa]
      exact ih (pos + 1) (by omega)
    · rw [if_neg hle]

/-- A failing attempt advances the scan position by one. -/
lemma finditerLoop_fail_step (s : List Char) (q fuel : Nat) (c : Char) (l : List Char)
    (hdrop : s.drop q = c :: l) (hc : c.isDigit = false) (hfuel : 1 ≤ fuel) :
    finditerLoop fuel s q = finditerLoop (fuel - 1) s (q + 1) := by
  obtain ⟨g, rfl⟩ : ∃ g, fuel = g + 1 := ⟨fuel - 1, by omega⟩
  have hq : q ≤ s.length := by
    have := length_of_drop hdrop (by simp)
    omega
  have hfa : mrun (mrunFuel s) s blockItems q [] [] = .fail :=
    stably_block_fail s q
      (fun c' hc' => by
        rw [get?_of_drop hdrop] at hc'
        injection hc' with h
        rw [← h]
        exact hc)
      (mrunFuel s) (by unfold mrunFuel; omega)
  rw [finditerLoop, if_pos hq, hfa]
  rfl

/-- A successful block attempt contributes one match and moves the scan
to the match end. -/
lemma finditerLoop_block_step (s : List Char) (e : SubtitleEntry) (p fuel : Nat)
    (tail : List Char) (hWFe : WFentry e)
    (hdropP : s.drop p = coreChars e ++ '\n' :: tail)
    (htail : tail = [] ∨ ∃ c rest2, tail = '\n' :: c :: rest2 ∧ pyIsSpace c = false)
    (hfuel : 1 ≤ fuel) :
    finditerLoop fuel s p
      = (p + (coreChars e).length + 1, blockDone e p)
          :: finditerLoop (fuel - 1) s (p + (coreChars e).length + 1) := by
  obtain ⟨g, rfl⟩ : ∃ g, fuel = g + 1 := ⟨fuel - 1, by omega⟩
  have hlen : s.length = p + (coreChars e).length + 1 + tail.length := by
    have h := length_of_drop hdropP (by simp)
    rw [List.length_append, List.length_cons] at h
    omega
  have hc1 : 1 ≤ (coreChars e).length := by
    unfold coreChars
    rw [List.length_append, List.length_cons]
    omega
  have hok : mrun (mrunFuel s) s blockItems p [] []
      = .ok (p + (coreChars e).length + 1) (blockDone e p) :=
    stably_block s e p tail hWFe hdropP htail (mrunFuel s)
      (by unfold mrunFuel; omega)
  rw [finditerLoop, if_pos (by omega), hok]
  show (if p + (coreChars e).length + 1 = p
      then (p + (coreChars e).length + 1, blockDone e p) :: finditerLoop g s (p + 1)
      else (p + (coreChars e).length + 1, blockDone e p)
        :: finditerLoop g s (p + (coreChars e).length + 1))
    = (p + (coreChars e).length + 1, blockDone e p)
        :: finditerLoop (g + 1 - 1) s (p + (coreChars e).length + 1)
  rw [if_neg (by omega)]
  rfl

/-- A serialized entry list starts with a non-whitespace character (a
digit or the minus sign of the first entry's number). -/
lemma blocksChars_cons_head (e : SubtitleEntry) (rest : List SubtitleEntry) :
    ∃ c l, blocksChars (e :: rest) = c :: l ∧ pyIsSpace c = false := by
  obtain ⟨c, r, hcr, hc, _⟩ := intRepr_head e.number
  cases rest with
  | nil =>
    simp only [blocksChars, blockChars, hcr, List.cons_append]
    exact ⟨c, _, rfl, hc⟩
  | cons e2 r2 =>
    simp only [blocksChars, blockChars, hcr, List.cons_append]
    exact ⟨c, _, rfl, hc⟩

/-- Decomposition of the serialized form at the head entry: an optional
sign, the core characters, the terminating newline, and a tail that is
either empty (last entry) or the separator newline followed by the rest. -/
lemma blocksChars_decomp (e : SubtitleEntry) (rest : List SubtitleEntry) (s : List Char)
    (pos : Nat) (hdrop : s.drop pos = blocksChars (e :: rest)) :
    ∃ tail,
      s.drop pos = (if e.number < 0 then ['-'] else []) ++ (coreChars e ++ '\n' :: tail)
      ∧ (tail = [] ∨ ∃ c l, tail = '\n' :: c :: l ∧ pyIsSpace c = false)
      ∧ s.drop ((if e.number < 0 then pos + 1 else pos) + (coreChars e).length + 2)
          = blocksChars rest := by
  have hsign : (if e.number < 0 then pos + 1 else pos)
      = pos + (if e.number < 0 then ['-'] else ([] : List Char)).length := by
    by_cases hneg : e.number < 0
    · rw [if_pos hneg, if_pos hneg]
      rfl
    · rw [if_neg hneg, if_neg hneg]
      rfl
  cases rest with
  | nil =>
    refine ⟨[], ?_, Or.inl rfl, ?_⟩
    · rw [hdrop]
      show blockChars e ++ ['\n'] = _
      rw [blockChars_eq]
      simp [List.append_assoc]
    · have hdrop' : s.drop pos
          = (if e.number < 0 then ['-'] else []) ++ (coreChars e ++ '\n' :: []) := by
        rw [hdrop]
        show blockChars e ++ ['\n'] = _
        rw [blockChars_eq]
        simp [List.append_assoc]
      have hlen := length_of_drop hdrop' (by simp)
      apply List.drop_eq_nil_of_le
      rw [hsign]
      rw [List.length_append, List.length_append, List.length_cons, List.length_nil] at hlen
      omega
  | cons e2 r2 =>
    refine ⟨'\n' :: blocksChars (e2 :: r2), ?_, ?_, ?_⟩
    · rw [hdrop]
      show blockChars e ++ '\n' :: '\n' :: blocksChars (e2 :: r2) = _
      rw [blockChars_eq]
      simp [List.append_assoc]
    · obtain ⟨c, l, heq, hc⟩ := blocksChars_cons_head e2 r2
      exact Or.inr ⟨c, l, by rw [heq], hc⟩
    · have hdrop' : s.drop pos
          = (if e.number < 0 then ['-'] else [])
              ++ (coreChars e ++ '\n' :: '\n' :: blocksChars (e2 :: r2)) := by
        rw [hdrop]
        show blockChars e ++ '\n' :: '\n' :: blocksChars (e2 :: r2) = _
        rw [blockChars_eq]
        simp [List.append_assoc]
      have h1 := drop_append_of_drop hdrop'
      rw [← hsign] at h1
      have h2 : s.drop ((if e.number < 0 then pos + 1 else pos) + (coreChars e).length)
          = '\n' :: '\n' :: blocksChars (e2 :: r2) := by
        have h := drop_append_of_drop h1
        exact h
      have h3 := drop_succ_of_drop h2
      have h4 := drop_succ_of_drop h3
      rw [show (if e.number < 0 then pos + 1 else pos) + (coreChars e).length + 1 + 1
          = (if e.number < 0 then pos + 1 else pos) + (coreChars e).length + 2
          from by omega] at h4
      exact h4

/-- The matches `finditer` produces on a serialized entry list, with
their end positions and capture groups. -/
def blockMatches : List SubtitleEntry → Nat → List (Nat × List (Nat × Nat × Nat))
  | [], _ => []
  | e :: rest, pos =>
    ((if e.number < 0 then pos + 1 else pos) + (coreChars e).length + 1,
        blockDone e (if e.number < 0 then pos + 1 else pos))
      :: blockMatches rest
          ((if e.number < 0 then pos + 1 else pos) + (coreChars e).length + 2)

/-- Reading the capture groups of a block match back out of the input
reproduces the entry, except that the number is re-read from its digits
(so a negative number comes back as its absolute value). -/
lemma entryOfMatch_blockDone (s : List Char) (e : SubtitleEntry) (p : Nat) (tail : List Char)
    (hWF : WFentry e)
    (hdrop : s.drop p = coreChars e ++ '\n' :: tail) :
    entryOfMatch s (blockDone e p)
      = some { e with number := (digitsToNat (Nat.repr e.number.natAbs).data : Int) } := by
  obtain ⟨hts1, hts2, htl, hlines⟩ := hWF
  obtain ⟨hlen1, -⟩ := tsOK_head hts1
  obtain ⟨hlen2, -⟩ := tsOK_head hts2
  have hcore : (coreChars e).length
      = (Nat.repr e.number.natAbs).data.length + 31
          + (joinNl (e.text_lines.map String.data)).length := by
    unfold coreChars
    simp only [List.length_append, List.length_cons, hlen1, hlen2]
    omega
  have hdrop0 : s.drop p
      = (Nat.repr e.number.natAbs).data ++ ('\n' :: (e.start_time.data
          ++ ' ' :: '-' :: '-' :: '>' :: ' ' :: (e.end_time.data
            ++ '\n' :: (joinNl (e.text_lines.map String.data) ++ '\n' :: tail)))) := by
    rw [hdrop]
    simp [coreChars, List.append_assoc]
  have D1 := drop_append_of_drop hdrop0
  have D2 := drop_succ_of_drop D1
  have D8 : s.drop (p + (Nat.repr e.number.natAbs).data.length + 18)
      = e.end_time.data
          ++ '\n' :: (joinNl (e.text_lines.map String.data) ++ '\n' :: tail) := by
    have h3 : s.drop (p + (Nat.repr e.number.natAbs).data.length + 13)
        = ' ' :: ('-' :: '-' :: '>' :: ' ' :: (e.end_time.data
            ++ '\n' :: (joinNl (e.text_lines.map String.data) ++ '\n' :: tail))) := by
      have h := drop_append_of_drop D2
      rw [hlen1] at h
      rwa [show p + (Nat.repr e.number.natAbs).data.length + 1 + 12
          = p + (Nat.repr e.number.natAbs).data.length + 13 from by omega] at h
    have h4 := drop_succ_of_drop h3
    have h5 := drop_succ_of_drop h4
    have h6 := drop_succ_of_drop h5
    have h7 := drop_succ_of_drop h6
    have h8 := drop_succ_of_drop h7
    rwa [show p + (Nat.repr e.number.natAbs).data.length + 13 + 1 + 1 + 1 + 1 + 1
        = p + (Nat.repr e.number.natAbs).data.length + 18 from by omega] at h8
  have D10 : s.drop (p + (Nat.repr e.number.natAbs).data.length + 31)
      = joinNl (e.text_lines.map String.data) ++ '\n' :: tail := by
    have h := drop_append_of_drop D8
    rw [hlen2] at h
    have h2 := drop_succ_of_drop h
    rwa [show p + (Nat.repr e.number.natAbs).data.length + 18 + 12 + 1
        = p + (Nat.repr e.number.natAbs).data.length + 31 from by omega] at h2
  have s1 : sliceChars s p (p + (Nat.repr e.number.natAbs).data.length)
      = (Nat.repr e.number.natAbs).data := by
    unfold sliceChars
    rw [hdrop0, show p + (Nat.repr e.number.natAbs).data.length - p
        = (Nat.repr e.number.natAbs).data.length from by omega]
    exact List.take_left _ _
  have s2 : sliceChars s (p + (Nat.repr e.number.natAbs).data.length + 1)
      (p + (Nat.repr e.number.natAbs).data.length + 13) = e.start_time.data := by
    unfold sliceChars
    rw [D2, show p + (Nat.repr e.number.natAbs).data.length + 13
        - (p + (Nat.repr e.number.natAbs).data.length + 1) = 12 from by omega]
    rw [← hlen1]
    exact List.take_left _ _
  have s3 : sliceChars s (p + (Nat.repr e.number.natAbs).data.length + 18)
      (p + (Nat.repr e.number.natAbs).data.length + 30) = e.end_time.data := by
    unfold sliceChars
    rw [D8, show p + (Nat.repr e.number.natAbs).data.length + 30
        - (p + (Nat.repr e.number.natAbs).data.length + 18) = 12 from by omega]
    rw [← hlen2]
    exact List.take_left _ _
  have s4 : sliceChars s (p + (Nat.repr e.number.natAbs).data.length + 31)
      (p + (coreChars e).length + 1)
      = joinNl (e.text_lines.map String.data) ++ ['\n'] := by
    unfold sliceChars
    rw [D10, show p + (coreChars e).length + 1
        - (p + (Nat.repr e.number.natAbs).data.length + 31)
        = (joinNl (e.text_lines.map String.data)).length + 1 from by rw [hcore]; omega]
    rw [show joinNl (e.text_lines.map String.data) ++ '\n' :: tail
        = (joinNl (e.text_lines.map String.data) ++ ['\n']) ++ tail from by simp]
    rw [show (joinNl (e.text_lines.map String.data)).length + 1
        = (joinNl (e.text_lines.map String.data) ++ ['\n']).length from by simp]
    exact List.take_left _ _
  have g1 : groupSpan (blockDone e p) 1
      = some (p, p + (Nat.repr e.number.natAbs).data.length) := rfl
  have g2 : groupSpan (blockDone e p) 2
      = some (p + (Nat.repr e.number.natAbs).data.length + 1,
          p + (Nat.repr e.number.natAbs).data.length + 13) := rfl
  have g3 : groupSpan (blockDone e p) 3
      = some (p + (Nat.repr e.number.natAbs).data.length + 18,
          p + (Nat.repr e.number.natAbs).data.length + 30) := rfl
  have g4 : groupSpan (blockDone e p) 4
      = some (p + (Nat.repr e.number.natAbs).data.length + 31,
          p + (coreChars e).length + 1) := rfl
  unfold entryOfMatch
  rw [g1, g2, g3, g4]
  show (some
      { number := (digitsToNat (sliceChars s p
            (p + (Nat.repr e.number.natAbs).data.length)) : Int)
        start_time := String.mk (sliceChars s
          (p + (Nat.repr e.number.natAbs).data.length + 1)
          (p + (Nat.repr e.number.natAbs).data.length + 13))
        end_time := String.mk (sliceChars s
          (p + (Nat.repr e.number.natAbs).data.length + 18)
          (p + (Nat.repr e.number.natAbs).data.length + 30))
        text_lines := ((splitNl (sliceChars s
            (p + (Nat.repr e.number.natAbs).data.length + 31)
            (p + (coreChars e).length + 1))).map String.mk).filter
          (fun l => l ≠ "") } : Option SubtitleEntry)
    = _
  rw [s1, s2, s3, s4]
  rw [mk_data_eq, mk_data_eq]
  rw [textLines_roundtrip e.text_lines htl
    (by
      intro l hl
      obtain ⟨hnl, c, hc, -⟩ := hlines l hl
      refine ⟨fun hh => ?_, hnl⟩
      rw [hh] at hc
      simp at hc)]

/-- Turning every match of the scan into an entry reads back the input
list, with each number re-read from its digits. -/
lemma blockMatches_parse : ∀ (es : List SubtitleEntry) (s : List Char) (pos : Nat),
    (∀ e ∈ es, WFentry e) →
    s.drop pos = blocksChars es →
    (blockMatches es pos).filterMap (fun m => entryOfMatch s m.2)
      = es.map (fun e => { e with
          number := (digitsToNat (Nat.repr e.number.natAbs).data : Int) }) := by
  intro es
  induction es with
  | nil => intro s pos _ _; rfl
  | cons e rest ih =>
    intro s pos hWF hdrop
    obtain ⟨tail, hsplit, htail, hnext⟩ := blocksChars_decomp e rest s pos hdrop
    have hWFe : WFentry e := hWF e (List.mem_cons_self _ _)
    have hdropP : s.drop (if e.number < 0 then pos + 1 else pos)
        = coreChars e ++ '\n' :: tail := by
      by_cases hneg : e.number < 0
      · rw [if_pos hneg] at hsplit
        rw [if_pos hneg]
        exact drop_succ_of_drop hsplit
      · rw [if_neg hneg] at hsplit
        rw [if_neg hneg]
        rw [List.nil_append] at hsplit
        exact hsplit
    rw [show blockMatches (e :: rest) pos
        = ((if e.number < 0 then pos + 1 else pos) + (coreChars e).length + 1,
            blockDone e (if e.number < 0 then pos + 1 else pos))
          :: blockMatches rest
              ((if e.number < 0 then pos + 1 else pos) + (coreChars e).length + 2)
        from rfl]
    have hih := ih s ((if e.number < 0 then pos + 1 else pos) + (coreChars e).length + 2)
      (fun x hx => hWF x (List.mem_cons_of_mem e hx)) hnext
    rw [List.filterMap_cons,
      entryOfMatch_blockDone s e (if e.number < 0 then pos + 1 else pos) tail hWFe hdropP,
      List.map_cons, hih]

/-- The scan loop on a serialized well-formed entry list finds exactly
one match per entry. -/
lemma finditerLoop_blocks : ∀ (es : List SubtitleEntry) (pos fuel : Nat) (s : List Char),
    (∀ e ∈ es, WFentry e) →
    s.drop pos = blocksChars es →
    s.length + 1 ≤ fuel + pos →
    finditerLoop fuel s pos = blockMatches es pos := by
  intro es
  induction es with
  | nil =>
    intro pos fuel s _ hdrop _
    have hlen : s.length ≤ pos := by
      have h := List.length_drop pos s
      rw [hdrop] at h
      rw [show (blocksChars ([] : List SubtitleEntry)).length = 0 from rfl] at h
      omega
    rw [finditerLoop_nil s fuel pos hlen]
    rfl
  | cons e rest ih =>
    intro pos fuel s hWF hdrop hfuel
    obtain ⟨tail, hsplit, htail, hnext⟩ := blocksChars_decomp e rest s pos hdrop
    have hWFe : WFentry e := hWF e (List.mem_cons_self _ _)
    have hposlen : s.length = pos + (blocksChars (e :: rest)).length := by
      obtain ⟨c, l, heq, _⟩ := blocksChars_cons_head e rest
      exact length_of_drop hdrop (by rw [heq]; simp)
    by_cases hneg : e.number < 0
    · rw [if_pos hneg] at hsplit
      have hdropP : s.drop (pos + 1) = coreChars e ++ '\n' :: tail :=
        drop_succ_of_drop hsplit
      have hlenP : s.length = pos + 1 + (coreChars e).length + 1 + tail.length := by
        have h := length_of_drop hdropP (by simp)
        rw [List.length_append, List.length_cons] at h
        omega
      rw [finditerLoop_fail_step s pos fuel '-' _ hsplit (by decide) (by omega)]
      rw [finditerLoop_block_step s e (pos + 1) (fuel - 1) tail hWFe hdropP htail
        (by omega)]
      rw [show blockMatches (e :: rest) pos
          = (pos + 1 + (coreChars e).length + 1, blockDone e (pos + 1))
              :: blockMatches rest (pos + 1 + (coreChars e).length + 2) from by
        simp [blockMatches, if_pos hneg]]
      congr 1
      rw [if_pos hneg] at hnext
      rcases htail with h0 | ⟨c, l, heq, _⟩
      · subst h0
        simp only [List.length_nil] at hlenP
        rw [finditerLoop_nil s _ _ (by omega)]
        have hbn : blocksChars rest = [] := by
          have h := List.length_drop (pos + 1 + (coreChars e).length + 2) s
          rw [hnext] at h
          cases hr : blocksChars rest with
          | nil => rfl
          | cons a t => rw [hr] at h; simp at h; omega
        rw [show blockMatches rest (pos + 1 + (coreChars e).length + 2) = [] from by
          cases hre : rest with
          | nil => rfl
          | cons a t =>
            obtain ⟨c, l, heq, _⟩ := blocksChars_cons_head a t
            rw [hre, heq] at hbn
            cases hbn]
      · subst heq
        simp only [List.length_cons] at hlenP
        have hdropT : s.drop (pos + 1 + (coreChars e).length + 1)
            = '\n' :: c :: l := by
          have h1 := drop_append_of_drop hdropP
          exact drop_succ_of_drop h1
        rw [finditerLoop_fail_step s _ _ '\n' _ hdropT (by decide) (by omega)]
        rw [show pos + 1 + (coreChars e).length + 1 + 1
            = pos + 1 + (coreChars e).length + 2 from by omega]
        exact ih _ _ s (fun x hx => hWF x (List.mem_cons_of_mem e hx)) hnext (by omega)
    · rw [if_neg hneg] at hsplit
      rw [List.nil_append] at hsplit
      have hlenP : s.length = pos + (coreChars e).length + 1 + tail.length := by
        have h := length_of_drop hsplit (by simp)
        rw [List.length_append, List.length_cons] at h
        omega
      rw [finditerLoop_block_step s e pos fuel tail hWFe hsplit htail (by omega)]
      rw [show blockMatches (e :: rest) pos
          = (pos + (coreChars e).length + 1, blockDone e pos)
              :: blockMatches rest (pos + (coreChars e).length + 2) from by
        simp [blockMatches, if_neg hneg]]
      congr 1
      rw [if_neg hneg] at hnext
      rcases htail with h0 | ⟨c, l, heq, _⟩
      · subst h0
        simp only [List.length_nil] at hlenP
        rw [finditerLoop_nil s _ _ (by omega)]
        have hbn : blocksChars rest = [] := by
          have h := List.length_drop (pos + (coreChars e).length + 2) s
          rw [hnext] at h
          cases hr : blocksChars rest with
          | nil => rfl
          | cons a t => rw [hr] at h; simp at h; omega
        rw [show blockMatches rest (pos + (coreChars e).length + 2) = [] from by
          cases hre : rest with
          | nil => rfl
          | cons a t =>
            obtain ⟨c, l, heq, _⟩ := blocksChars_cons_head a t
            rw [hre, heq] at hbn
            cases hbn]
      · subst heq
        simp only [List.length_cons] at hlenP
        have hdropT : s.drop (pos + (coreChars e).length + 1) = '\n' :: c :: l := by
          have h1 := drop_append_of_drop hsplit
          exact drop_succ_of_drop h1
        rw [finditerLoop_fail_step s _ _ '\n' _ hdropT (by decide) (by omega)]
        rw [show pos + (coreChars e).length + 1 + 1
            = pos + (coreChars e).length + 2 from by omega]
        exact ih _ _ s (fun x hx => hWF x (List.mem_cons_of_mem e hx)) hnext (by omega)

/-- `finditer` on a serialized well-formed entry list: one match per
entry. -/
lemma finditer_blocks (es : List SubtitleEntry) (hWF : ∀ e ∈ es, WFentry e) :
    finditer (blocksChars es) = blockMatches es 0 := by
  unfold finditer
  exact finditerLoop_blocks es 0 ((blocksChars es).length + 1) (blocksChars es)
    hWF (by rw [List.drop_zero]) (by omega)

/-! ### `perform_deep_cleaning` is a no-op on duplicate-free input -/

/-- When every line of an entry has a non-whitespace character, the
strip filter of `get_cleaned_lines` keeps every line. -/
lemma get_cleaned_lines_all (e : SubtitleEntry)
    (h : ∀ line ∈ e.text_lines, ∃ c ∈ line.data, pyIsSpace c = false) :
    e.get_cleaned_lines = e.text_lines := by
  unfold SubtitleEntry.get_cleaned_lines
  apply List.filter_eq_self.mpr
  intro l hl
  obtain ⟨c, hc, hcf⟩ := h l hl
  simp only [ne_eq, decide_eq_true_eq]
  intro hs
  have := (pyStrip_eq_empty_iff l).mp hs c hc
  rw [this] at hcf
  cases hcf

lemma is_empty_false_of_lines (e : SubtitleEntry) (hne : e.text_lines ≠ [])
    (h : ∀ line ∈ e.text_lines, ∃ c ∈ line.data, pyIsSpace c = false) :
    e.is_empty = false := by
  rw [is_empty_false_iff, get_cleaned_lines_all e h]
  exact hne

/-- A pass over non-empty entries in which no entry's first cleaned
line matches its predecessor's last cleaned line changes nothing. -/
lemma cleanGo_nodup : ∀ (rest : List SubtitleEntry) (prev : SubtitleEntry),
    prev.is_empty = false →
    (∀ x ∈ rest, x.is_empty = false) →
    List.Chain' (fun a b =>
      b.get_cleaned_lines.head? ≠ a.get_cleaned_lines.getLast?) (prev :: rest) →
    cleanGo prev rest = rest := by
  intro rest
  induction rest with
  | nil => intro prev _ _ _; rfl
  | cons cur rest ih =>
    intro prev hp hc0 hchain
    have hc : cur.is_empty = false := hc0 cur (List.mem_cons_self _ _)
    have hdup : dupCondition prev cur = false := by
      cases hx : dupCondition prev cur
      · rfl
      · exact absurd ((dupCondition_iff hp hc).mp hx) (List.chain'_cons.mp hchain).1
    rw [cleanGo, hp, hc, hdup]
    show cur :: cleanGo cur rest = cur :: rest
    rw [ih cur hc (fun x hx => hc0 x (List.mem_cons_of_mem _ hx))
      (List.chain'_cons.mp hchain).2]

lemma remove_duplicates_nodup (es : List SubtitleEntry)
    (hne : ∀ x ∈ es, x.is_empty = false)
    (hchain : List.Chain' (fun a b =>
      b.get_cleaned_lines.head? ≠ a.get_cleaned_lines.getLast?) es) :
    remove_duplicates es = es := by
  rw [remove_duplicates_eq_spec]
  cases es with
  | nil => rfl
  | cons e0 rest =>
    show e0 :: cleanGo e0 rest = e0 :: rest
    rw [cleanGo_nodup rest e0 (hne e0 (List.mem_cons_self _ _))
      (fun x hx => hne x (List.mem_cons_of_mem _ hx)) hchain]

/-- On non-empty, duplicate-free entries the deep clean only renumbers:
the first pass changes nothing, so the loop stops at once, and the
empty-entry filter keeps everything. -/
lemma perform_deep_cleaning_nodup (es : List SubtitleEntry)
    (hne : ∀ x ∈ es, x.is_empty = false)
    (hchain : List.Chain' (fun a b =>
      b.get_cleaned_lines.head? ≠ a.get_cleaned_lines.getLast?) es) :
    perform_deep_cleaning es = renumber es := by
  have hrd := remove_duplicates_nodup es hne hchain
  unfold perform_deep_cleaning
  have h1 : cleaningLoop 5 es = es := by
    show (if (remove_duplicates es).length = es.length
        then remove_duplicates es else cleaningLoop 4 (remove_duplicates es)) = es
    rw [hrd, if_pos rfl]
  rw [h1]
  rw [List.filter_eq_self.mpr (fun x hx => by rw [hne x hx]; rfl)]

/-- Renumbering ignores whatever numbers the entries carry. -/
lemma renumberFrom_map_number_change :
    ∀ (l : List SubtitleEntry) (f : SubtitleEntry → Int) (i : Int),
      renumberFrom i (l.map (fun e => { e with number := f e })) = renumberFrom i l := by
  intro l f
  induction l with
  | nil => intro i; rfl
  | cons e rest ih =>
    intro i
    simp only [List.map_cons, renumberFrom, List.cons.injEq]
    exact ⟨trivial, ih (i + 1)⟩

/-- Transport of a chain along a pointwise implication that may use
membership of both endpoints. -/
lemma chain'_congr_mem {α : Type} {R S : α → α → Prop} :
    ∀ (l : List α), (∀ a ∈ l, ∀ b ∈ l, R a b → S a b) →
      List.Chain' R l → List.Chain' S l := by
  intro l
  induction l with
  | nil => intro _ _; exact List.chain'_nil
  | cons a t ih =>
    intro h hc
    cases t with
    | nil => exact List.chain'_singleton a
    | cons b t2 =>
      rw [List.chain'_cons] at hc ⊢
      refine ⟨h a (List.mem_cons_self _ _) b (List.mem_cons_of_mem _ (List.mem_cons_self _ _)) hc.1, ?_⟩
      exact ih (fun x hx y hy hxy => h x (List.mem_cons_of_mem _ hx)
        y (List.mem_cons_of_mem _ hy) hxy) hc.2

/-! ### Claim C8: round-trip of duplicate-free well-formed entries -/

/-- C8: for entries with well-shaped timestamps, at least one text line
each, non-blank newline-free lines, and no entry whose first line equals
its predecessor's last line, serializing with `format_srt`, parsing the
result with `parse_srt` and deep-cleaning returns exactly the original
entries with their numbers reassigned to `1..N` — which `renumber`
makes a no-op when they already were `1..N`. -/
theorem C8_roundtrip (entries : List SubtitleEntry)
    (hWF : ∀ e ∈ entries, WFentry e)
    (hnd : List.Chain' (fun e1 e2 =>
      e2.text_lines.head? ≠ e1.text_lines.getLast?) entries) :
    perform_deep_cleaning (parse_srt (format_srt entries)) = renumber entries := by
  have htl : ∀ e ∈ entries, e.text_lines ≠ [] := fun e he => (hWF e he).2.2.1
  have hparse : parse_srt (format_srt entries)
      = entries.map (fun e => { e with
          number := (digitsToNat (Nat.repr e.number.natAbs).data : Int) }) := by
    unfold parse_srt
    rw [format_srt_data entries htl, finditer_blocks entries hWF]
    exact blockMatches_parse entries (blocksChars entries) 0 hWF (by rw [List.drop_zero])
  have hclean : ∀ x ∈ entries, x.get_cleaned_lines = x.text_lines := fun x hx =>
    get_cleaned_lines_all x (fun l hl => ((hWF x hx).2.2.2 l hl).2)
  have hchainG : List.Chain' (fun a b =>
      b.get_cleaned_lines.head? ≠ a.get_cleaned_lines.getLast?) entries :=
    chain'_congr_mem entries
      (fun a ha b hb hab => by rw [hclean a ha, hclean b hb]; exact hab) hnd
  have hchain' : List.Chain' (fun a b =>
      b.get_cleaned_lines.head? ≠ a.get_cleaned_lines.getLast?)
      (entries.map (fun e => { e with
        number := (digitsToNat (Nat.repr e.number.natAbs).data : Int) })) := by
    rw [List.chain'_map]
    exact hchainG
  have hne' : ∀ x ∈ entries.map (fun e => { e with
      number := (digitsToNat (Nat.repr e.number.natAbs).data : Int) }),
      x.is_empty = false := by
    intro x hx
    obtain ⟨a, ha, rfl⟩ := List.mem_map.mp hx
    exact is_empty_false_of_lines _ (hWF a ha).2.2.1
      (fun l hl => ((hWF a ha).2.2.2 l hl).2)
  rw [hparse, perform_deep_cleaning_nodup _ hne' hchain']
  unfold renumber
  exact renumberFrom_map_number_change entries _ 1

instance (e : SubtitleEntry) : Decidable (WFentry e) :=
  inferInstanceAs (Decidable (tsOK e.start_time.data = true
    ∧ tsOK e.end_time.data = true
    ∧ e.text_lines ≠ []
    ∧ ∀ line ∈ e.text_lines, '\n' ∉ line.data ∧ ∃ c ∈ line.data, pyIsSpace c = false))

/-- A concrete duplicate-free, well-formed two-entry input. -/
def exC8 : List SubtitleEntry :=
  [⟨1, "00:00:01,000", "00:00:02,000", ["Hello"]⟩,
   ⟨2, "00:00:02,000", "00:00:03,000", ["World"]⟩]

/-- C8 (witness): the hypotheses of `C8_roundtrip` hold on `exC8`, and
the round-trip equation follows for it. -/
theorem C8_roundtrip_witness :
    (∀ e ∈ exC8, WFentry e)
    ∧ List.Chain' (fun e1 e2 =>
        e2.text_lines.head? ≠ e1.text_lines.getLast?) exC8
    ∧ perform_deep_cleaning (parse_srt (format_srt exC8)) = renumber exC8 :=
  ⟨by decide,
   List.chain'_cons.mpr ⟨by decide, List.chain'_singleton _⟩,
   C8_roundtrip exC8 (by decide)
     (List.chain'_cons.mpr ⟨by decide, List.chain'_singleton _⟩)⟩

end SubtitleCleaner
